import Mathlib

/-
Verification of the surrealdb-prometheus-exporter core against its
specification.  Go strings are modelled as lists of characters, Go maps as
association lists, and the external database driver as an oracle of call
outcomes.  Definitions are shallow embeddings of the Go source files
internal/domain/domain.go, internal/surrealdb/live_query.go,
internal/surrealdb/connection.go, internal/surrealdb/record_count.go,
internal/engine/table_filter.go and the table-info cache.
-/

/-- Model of a Go string: a list of characters (runes). -/
abbrev GoStr := List Char

/-- Embeds a Lean string literal into the Go string model. -/
def gs (s : String) : GoStr := s.data

/-- Embedding of domain.TableIdentifier: an immutable
(namespace, database, table) triple. -/
structure TableIdentifier where
  ns : GoStr
  db : GoStr
  table : GoStr
deriving DecidableEq, Repr

/-- Embedding of TableIdentifier.String: the colon-separated identifier
"namespace:database:table". -/
def TableIdentifier.toGoString (t : TableIdentifier) : GoStr :=
  t.ns ++ ':' :: t.db ++ ':' :: t.table

/-- Model of Go strings.Split with a single-character separator: splits
around every occurrence of the separator; the empty string yields one
empty part, matching Go. -/
def stringsSplitChar (sep : Char) : GoStr → List GoStr
  | [] => [[]]
  | c :: rest =>
    if c = sep then [] :: stringsSplitChar sep rest
    else
      match stringsSplitChar sep rest with
      | [] => [[c]]
      | h :: t => (c :: h) :: t

/-- Embedding of domain.ParseTableIdentifier: splits on colons and requires
exactly three parts, returning none (the error case) otherwise. -/
def parseTableIdentifier (s : GoStr) : Option TableIdentifier :=
  match stringsSplitChar ':' s with
  | [a, b, c] => some ⟨a, b, c⟩
  | _ => none

/-- Operation type detected from record shape, from domain.OperationType. -/
inductive OperationType
  | graph
  | relational
  | keyValue
  | document
  | unknownType
deriving DecidableEq, Repr

/-- The Go string value of each OperationType constant. -/
def OperationType.toGoString : OperationType → GoStr
  | .graph => gs "graph"
  | .relational => gs "relational"
  | .keyValue => gs "key_value"
  | .document => gs "document"
  | .unknownType => gs "unknown"

/-- Operation action carried by a live notification, from
domain.OperationAction. -/
inductive OperationAction
  | create
  | updateAct
  | deleteAct
  | unknownAct
deriving DecidableEq, Repr

/-- Model of a Go value stored in a record field: the detector only
distinguishes nested maps and arrays (complex) from everything else
(scalar). -/
inductive GoValue
  | scalar
  | complex
deriving DecidableEq, Repr

/-- Model of a record payload: a string-keyed Go map, as an association
list with pairwise distinct keys in map iteration order. -/
abbrev GoRecord := List (GoStr × GoValue)

/-- Embedding of OperationTypeDetector.isGraphRecord: one pass over the
record keys setting hasIn and hasOut flags. -/
def isGraphRecord (r : GoRecord) : Bool :=
  let flags := r.foldl
    (fun (fl : Bool × Bool) p =>
      (fl.1 || decide (p.1 = gs "in"), fl.2 || decide (p.1 = gs "out")))
    (false, false)
  flags.1 && flags.2

/-- Field count computed by OperationTypeDetector.isKeyValueRecord: the
number of fields whose key is not "id". -/
def kvFieldCount (r : GoRecord) : Nat :=
  r.foldl (fun n p => if p.1 = gs "id" then n else n + 1) 0

/-- Embedding of OperationTypeDetector.isKeyValueRecord: between one and
two fields excluding the identifier. -/
def isKeyValueRecord (r : GoRecord) : Bool :=
  decide (kvFieldCount r ≤ 2) && decide (0 < kvFieldCount r)

/-- Scalar and complex field counts computed by
OperationTypeDetector.isRelationalRecord, skipping the "id" field. -/
def relCounts (r : GoRecord) : Nat × Nat :=
  r.foldl
    (fun (c : Nat × Nat) p =>
      if p.1 = gs "id" then c
      else
        match p.2 with
        | .complex => (c.1, c.2 + 1)
        | .scalar => (c.1 + 1, c.2))
    (0, 0)

/-- Embedding of OperationTypeDetector.isRelationalRecord: at least three
scalar fields and at most one complex field, excluding the identifier. -/
def isRelationalRecord (r : GoRecord) : Bool :=
  decide (3 ≤ (relCounts r).1) && decide ((relCounts r).2 ≤ 1)

/-- Embedding of OperationTypeDetector.DetectFromRecord restricted to the
string-keyed map case: graph, then key-value, then relational, then
document, in the source order of checks. -/
def detectFromRecord (r : GoRecord) : OperationType :=
  if isGraphRecord r then .graph
  else if isKeyValueRecord r then .keyValue
  else if isRelationalRecord r then .relational
  else .document

/-- Modelled from the spec wording of claim C4: the classifier cascade as
the claim states it, with "at most two fields excluding its identifier"
as the whole key-value condition.  Used only to compare the claim against
the source classifier. -/
def claimClassifierC4 (r : GoRecord) : OperationType :=
  if r.any (fun p => decide (p.1 = gs "in")) &&
      r.any (fun p => decide (p.1 = gs "out")) then .graph
  else if (r.filter (fun p => decide (¬ p.1 = gs "id"))).length ≤ 2 then .keyValue
  else if 3 ≤ (r.filter
          (fun p => decide (¬ p.1 = gs "id") && decide (p.2 = GoValue.scalar))).length
      ∧ (r.filter
          (fun p => decide (¬ p.1 = gs "id") && decide (p.2 = GoValue.complex))).length ≤ 1
    then .relational
  else .document

/-- Modelled from the spec wording of claim C4 with the key-value branch
amended to also require at least one field excluding the identifier. -/
def amendedClassifierC4 (r : GoRecord) : OperationType :=
  if r.any (fun p => decide (p.1 = gs "in")) &&
      r.any (fun p => decide (p.1 = gs "out")) then .graph
  else if 1 ≤ (r.filter (fun p => decide (¬ p.1 = gs "id"))).length
      ∧ (r.filter (fun p => decide (¬ p.1 = gs "id"))).length ≤ 2 then .keyValue
  else if 3 ≤ (r.filter
          (fun p => decide (¬ p.1 = gs "id") && decide (p.2 = GoValue.scalar))).length
      ∧ (r.filter
          (fun p => decide (¬ p.1 = gs "id") && decide (p.2 = GoValue.complex))).length ≤ 1
    then .relational
  else .document

/-- Embedding of domain.TableOperationMetrics: per table and operation
type create, update, and delete counters. -/
structure TableOperationMetrics where
  ns : GoStr
  db : GoStr
  table : GoStr
  opType : OperationType
  creates : Int
  updates : Int
  deletes : Int
deriving DecidableEq, Repr

/-- Embedding of makeKey: tableID.String() plus ":" plus the operation
type string. -/
def makeKey (t : TableIdentifier) (op : OperationType) : GoStr :=
  t.toGoString ++ ':' :: op.toGoString

/-- The key an already-stored metrics value corresponds to, reconstructed
from its own fields. -/
def metricsKey (m : TableOperationMetrics) : GoStr :=
  (TableIdentifier.mk m.ns m.db m.table).toGoString ++ ':' :: m.opType.toGoString

/-- Model of the accumulator metrics map: an association list from key to
metrics value with pairwise distinct keys. -/
abbrev OperationAccumulator := List (GoStr × TableOperationMetrics)

/-- The zero-valued metrics entry created by Record on first use of a
key. -/
def freshMetrics (t : TableIdentifier) (op : OperationType) : TableOperationMetrics :=
  ⟨t.ns, t.db, t.table, op, 0, 0, 0⟩

/-- Two's-complement wraparound of a Go int64: the result of any int64
arithmetic step, reduced into the representable range. -/
def wrapInt64 (x : Int) : Int := (x + 2 ^ 63) % 2 ^ 64 - 2 ^ 63

/-- The switch on the action inside OperationAccumulator.Record: bumps the
matching counter with Go int64 wraparound semantics; any other action
leaves the counters unchanged. -/
def applyAction (m : TableOperationMetrics) (act : OperationAction) : TableOperationMetrics :=
  match act with
  | .create => { m with creates := wrapInt64 (m.creates + 1) }
  | .updateAct => { m with updates := wrapInt64 (m.updates + 1) }
  | .deleteAct => { m with deletes := wrapInt64 (m.deletes + 1) }
  | .unknownAct => m

/-- Go map store on the association-list model: overwrites the value at an
existing key in place. -/
def setEntry (a : OperationAccumulator) (k : GoStr) (v : TableOperationMetrics) :
    OperationAccumulator :=
  a.map (fun p => if p.1 = k then (k, v) else p)

/-- Association-list lookup with decidable key equality, modelling a Go
map read. -/
def lookupEntry (a : OperationAccumulator) (k : GoStr) : Option TableOperationMetrics :=
  match a.find? (fun p => decide (p.1 = k)) with
  | some p => some p.2
  | none => none

/-- Embedding of OperationAccumulator.Record: looks the key up, creates a
zero entry on first use, then bumps the counter matching the action. -/
def recordOp (a : OperationAccumulator) (t : TableIdentifier) (op : OperationType)
    (act : OperationAction) : OperationAccumulator :=
  let k := makeKey t op
  match lookupEntry a k with
  | some m => setEntry a k (applyAction m act)
  | none => (k, applyAction (freshMetrics t op) act) :: a

/-- Embedding of OperationAccumulator.GetAndClear: returns a copy of every
stored metrics value and the reset (empty) store, both obtained under the
same lock acquisition. -/
def getAndClear (a : OperationAccumulator) :
    List TableOperationMetrics × OperationAccumulator :=
  (a.map (fun p => p.2), [])

/-- One call to Record, as data: the table, detected operation type, and
action of a processed notification. -/
structure RecordEvent where
  tid : TableIdentifier
  op : OperationType
  act : OperationAction

/-- Runs a sequence of Record calls against an initially empty
accumulator. -/
def runRecords (events : List RecordEvent) : OperationAccumulator :=
  events.foldl (fun a e => recordOp a e.tid e.op e.act) []

/-- Number of events in a record-call sequence that hit a given key with a
given action. -/
def countEvents (events : List RecordEvent) (k : GoStr) (act : OperationAction) : Int :=
  ((events.filter (fun e => decide (makeKey e.tid e.op = k) && decide (e.act = act))).length : Int)

/-- Sum of one counter over all drained metrics whose key is a given key
(with distinct keys this is the single matching counter). -/
def sumMetricsBy (f : TableOperationMetrics → Int) (l : List TableOperationMetrics)
    (k : GoStr) : Int :=
  ((l.filter (fun m => decide (metricsKey m = k))).map f).sum

/-- Sum of one counter over all accumulator entries stored at a given
key. -/
def accMetricsBy (f : TableOperationMetrics → Int) (a : OperationAccumulator)
    (k : GoStr) : Int :=
  ((a.filter (fun p => decide (p.1 = k))).map (fun p => f p.2)).sum

/-- Sum of the create counters of the drained metrics at a given key. -/
def sumCreates (l : List TableOperationMetrics) (k : GoStr) : Int :=
  sumMetricsBy (fun m => m.creates) l k

/-- Sum of the update counters of the drained metrics at a given key. -/
def sumUpdates (l : List TableOperationMetrics) (k : GoStr) : Int :=
  sumMetricsBy (fun m => m.updates) l k

/-- Sum of the delete counters of the drained metrics at a given key. -/
def sumDeletes (l : List TableOperationMetrics) (k : GoStr) : Int :=
  sumMetricsBy (fun m => m.deletes) l k

/-- Errors a Session Pool Get call can return: the emptiness-mismatch
contract violation, or a failure of one of the external driver calls made
while creating a session (connect, sign in, authenticate, initial scope
switch). -/
inductive GetError
  | mismatch
  | connectFailed
  | signInFailed
  | authFailed
  | useFailed
deriving DecidableEq, Repr

/-- Oracle for one createConnection attempt: whether each external driver
call made during session creation succeeds. -/
structure ConnAttempt where
  connectOk : Bool
  signInOk : Bool
  authOk : Bool
  useOk : Bool
deriving DecidableEq, Repr

/-- Embedding of createConnection: connect, sign in, authenticate, and
switch scope when both namespace and database are non-empty; on any
failure the partially created connection is closed and the error is
returned, so no session value is produced.  A successful creation yields
the fresh session identity supplied by the caller. -/
def createConnection (att : ConnAttempt) (ns db : GoStr) (freshId : Nat) :
    Except GetError Nat :=
  if !att.connectOk then .error .connectFailed
  else if !att.signInOk then .error .signInFailed
  else if !att.authOk then .error .authFailed
  else if decide (¬ ns = []) && decide (¬ db = []) && !att.useOk then .error .useFailed
  else .ok freshId

/-- State of singleConnectionManager: the cached session (if any) and the
last scope the session was switched to. -/
structure SingleManagerState where
  conn : Option Nat
  lastNS : GoStr
  lastDB : GoStr
deriving DecidableEq, Repr

/-- The zero state of a freshly constructed singleConnectionManager. -/
def newSingleManager : SingleManagerState := ⟨none, [], []⟩

/-- Embedding of singleConnectionManager.Get: validates the scope
arguments, creates the one session when absent, then issues a scope
switch when the requested non-root scope differs from the last one.  The
outerUseOk oracle governs that separate scope-switch call. -/
def singleGet (st : SingleManagerState) (ns db : GoStr) (att : ConnAttempt)
    (outerUseOk : Bool) (freshId : Nat) :
    Except GetError Nat × SingleManagerState :=
  if decide (ns = []) != decide (db = []) then (.error .mismatch, st)
  else
    match st.conn with
    | none =>
      match createConnection att ns db freshId with
      | .error e => (.error e, st)
      | .ok c =>
        let st1 : SingleManagerState := { st with conn := some c }
        if decide (¬ ns = []) && (decide (¬ ns = st1.lastNS) || decide (¬ db = st1.lastDB)) then
          if outerUseOk then (.ok c, { st1 with lastNS := ns, lastDB := db })
          else (.error .useFailed, st1)
        else (.ok c, st1)
    | some c =>
      if decide (¬ ns = []) && (decide (¬ ns = st.lastNS) || decide (¬ db = st.lastDB)) then
        if outerUseOk then (.ok c, { st with lastNS := ns, lastDB := db })
        else (.error .useFailed, st)
      else (.ok c, st)

/-- State of multiConnectionManager: the scope-key to session map (the
per-key creation mutexes are concurrency scaffolding and carry no session
state). -/
abbrev MultiManagerState := List (GoStr × Nat)

/-- Association-list lookup for the multi-manager session map. -/
def lookupConn (st : MultiManagerState) (k : GoStr) : Option Nat :=
  match st.find? (fun p => decide (p.1 = k)) with
  | some p => some p.2
  | none => none

/-- Embedding of multiConnectionManager.getOrCreate: returns the cached
session for the key, or creates one under the per-key lock and stores it
only on success. -/
def multiGetOrCreate (st : MultiManagerState) (key ns db : GoStr) (att : ConnAttempt)
    (freshId : Nat) : Except GetError Nat × MultiManagerState :=
  match lookupConn st key with
  | some c => (.ok c, st)
  | none =>
    match createConnection att ns db freshId with
    | .error e => (.error e, st)
    | .ok c => (.ok c, (key, c) :: st)

/-- The sentinel scope key used when no namespace/database is requested. -/
def commonConnectionKey : GoStr := gs "__common__"

/-- Embedding of multiConnectionManager.Get: validates the scope
arguments, then dispatches to getOrCreate with the ns:db key or the
common sentinel key. -/
def multiGet (st : MultiManagerState) (ns db : GoStr) (att : ConnAttempt)
    (freshId : Nat) : Except GetError Nat × MultiManagerState :=
  if (decide (ns = []) && decide (¬ db = [])) || (decide (¬ ns = []) && decide (db = [])) then
    (.error .mismatch, st)
  else if decide (¬ ns = []) then multiGetOrCreate st (ns ++ ':' :: db) ns db att freshId
  else multiGetOrCreate st commonConnectionKey [] [] att freshId

/-- Per-table worker state stored in LiveQueryManager.activeQueries (the
driver handle and cancellation capability carry no further reconciliation
state). -/
structure LiveQueryState where
  tableID : TableIdentifier
deriving DecidableEq, Repr

/-- The active live-query worker map, keyed by the canonical table
string. -/
abbrev ActiveQueries := List (GoStr × LiveQueryState)

/-- Key set view of the active worker map. -/
def activeKeys (a : ActiveQueries) : List GoStr := a.map (fun p => p.1)

/-- Go map store for the worker map: overwrite in place when the key
exists, otherwise add the entry. -/
def setActive (a : ActiveQueries) (k : GoStr) (v : LiveQueryState) : ActiveQueries :=
  if a.any (fun p => decide (p.1 = k)) then
    a.map (fun p => if p.1 = k then (k, v) else p)
  else (k, v) :: a

/-- First half of reconcileQueries, executed under the worker-map lock:
every active worker whose key is absent from the desired set is cancelled
and deleted from the map. -/
def reconcileRemove (active : ActiveQueries) (desired : List TableIdentifier) :
    ActiveQueries :=
  active.filter (fun p => desired.any (fun t => decide (t.toGoString = p.1)))

/-- Keys for which the second half of reconcileQueries starts a new
worker: desired keys with no entry in the active map. -/
def reconcileStarted (active : ActiveQueries) (desired : List TableIdentifier) :
    List GoStr :=
  ((desired.map (fun t => t.toGoString)).dedup).filter
    (fun k => decide (¬ k ∈ activeKeys active))

/-- The worker map once every worker started by a reconciliation pass has
reached the registration point inside runLiveQuery, which stores its
state under the table key. -/
def reconcileConverged (active : ActiveQueries) (desired : List TableIdentifier) :
    ActiveQueries :=
  desired.foldl
    (fun a t =>
      if a.any (fun p => decide (p.1 = t.toGoString)) then a
      else setActive a t.toGoString ⟨t⟩)
    (reconcileRemove active desired)

/-- Outcome of one runLiveQuery call for a worker whose manager context is
not cancelled: either the connection or live-query setup fails before the
worker registers itself, or the worker registers its state in the map and
the notification stream later fails. -/
inductive RunOutcome
  | setupFail
  | streamFail
deriving DecidableEq, Repr

/-- Embedding of the manageLiveQuery loop with the manager context never
cancelled: each iteration bumps the attempt counter, gives up once it
exceeds the maximum (returning without touching the map), and otherwise
consumes the next runLiveQuery outcome; a stream failure leaves the
registration made by runLiveQuery in the map and retries.  When the
outcome list is exhausted the worker is still blocked on its stream and
the current map is returned. -/
def manageLiveQueryLoop (maxAttempts : Nat) (tid : TableIdentifier) :
    List RunOutcome → Nat → ActiveQueries → ActiveQueries
  | outcomes, attempts, active =>
    if attempts + 1 > maxAttempts then active
    else
      match outcomes with
      | [] => active
      | o :: rest =>
        match o with
        | .setupFail => manageLiveQueryLoop maxAttempts tid rest (attempts + 1) active
        | .streamFail =>
            manageLiveQueryLoop maxAttempts tid rest (attempts + 1)
              (setActive active tid.toGoString ⟨tid⟩)

/-- Database operations issued by the stats table manager, as a trace:
conditional side-table record creation, trigger (event) definition,
trigger removal, and side-table record deletion. -/
inductive DBOp
  | createStats (statsName targetTable : GoStr)
  | defineEvent (eventName targetTable : GoStr)
  | removeEvent (eventName targetTable : GoStr)
  | deleteStats (statsName : GoStr)
deriving DecidableEq, Repr

/-- Whether a trace operation removes a provisioned object (a trigger or
the side-table record). -/
def DBOp.isRemoval : DBOp → Bool
  | .removeEvent _ _ => true
  | .deleteStats _ => true
  | _ => false

/-- Embedding of statsTableState: the target table and the generated
side-table name. -/
structure StatsTableState where
  targetTableID : TableIdentifier
  statsTableName : GoStr
deriving DecidableEq, Repr

/-- Embedding of StatsTableManager.getStatsTableName: prefix plus table
name. -/
def getStatsTableName (pre tableName : GoStr) : GoStr := pre ++ tableName

/-- The provisioned side-table map, keyed by the canonical table string. -/
abbrev ActiveStatsTables := List (GoStr × StatsTableState)

/-- Key set view of the provisioned side-table map. -/
def statsKeys (a : ActiveStatsTables) : List GoStr := a.map (fun p => p.1)

/-- Embedding of the operations StatsTableManager.removeStatsTable issues
on its success path: the three trigger removals in source order followed
by the side-table record deletion. -/
def removeStatsTableOps (st : StatsTableState) : List DBOp :=
  [ .removeEvent (gs "stats_create") st.targetTableID.table,
    .removeEvent (gs "stats_update") st.targetTableID.table,
    .removeEvent (gs "stats_delete") st.targetTableID.table,
    .deleteStats st.statsTableName ]

/-- Embedding of the operations StatsTableManager.createStatsTable issues
on its success path: the conditional record creation followed by the
three trigger definitions. -/
def createStatsTableOps (pre : GoStr) (t : TableIdentifier) : List DBOp :=
  [ .createStats (getStatsTableName pre t.table) t.table,
    .defineEvent (gs "stats_create") t.table,
    .defineEvent (gs "stats_update") t.table,
    .defineEvent (gs "stats_delete") t.table ]

/-- Embedding of StatsTableManager.reconcileTables on its success path:
when orphan removal is enabled, every provisioned entry whose key is
absent from the desired set has its removal operations issued and leaves
the map; then every desired key with no provisioned entry has its
creation operations issued and a fresh entry stored.  Returns the new map
and the trace of issued operations. -/
def reconcileStatsTables (removeOrphans : Bool) (pre : GoStr)
    (active : ActiveStatsTables) (desired : List TableIdentifier) :
    ActiveStatsTables × List DBOp :=
  let removePhase : ActiveStatsTables × List DBOp :=
    if removeOrphans then
      active.foldl
        (fun (acc : ActiveStatsTables × List DBOp) p =>
          if desired.any (fun t => decide (t.toGoString = p.1)) then
            (acc.1 ++ [p], acc.2)
          else (acc.1, acc.2 ++ removeStatsTableOps p.2))
        ([], [])
    else (active, [])
  desired.foldl
    (fun (acc : ActiveStatsTables × List DBOp) t =>
      if acc.1.any (fun p => decide (p.1 = t.toGoString)) then acc
      else
        (acc.1 ++ [(t.toGoString, ⟨t, getStatsTableName pre t.table⟩)],
         acc.2 ++ createStatsTableOps pre t))
    removePhase

/-- Embedding of domain.TableInfo restricted to the fields the filtering
and caching layers read. -/
structure TableInfo where
  name : GoStr
  database : GoStr
  ns : GoStr
deriving DecidableEq, Repr

/-- Heap model for the table-info cache: backing arrays of slice values
(each a list of info addresses) and the pointed-to TableInfo values. -/
structure CacheMem where
  slices : List (List Nat)
  infos : List TableInfo
deriving Repr

/-- State of tableInfoCache: which backing array the cached tables slice
currently points at. -/
structure CacheState where
  tablesRef : Nat
deriving DecidableEq, Repr

/-- Contents of a backing array, with the Go zero slice for a dangling
reference. -/
def sliceContents (m : CacheMem) (sid : Nat) : List Nat := m.slices.getD sid []

/-- Embedding of tableInfoCache.get: allocates a fresh backing array,
copies the cached pointer slice into it, and returns the fresh slice; the
cache state itself is untouched. -/
def cacheGet (m : CacheMem) (c : CacheState) : Nat × CacheMem :=
  (m.slices.length, { m with slices := m.slices ++ [sliceContents m c.tablesRef] })

/-- A caller mutation of a returned slice value: overwriting one element
of its backing array with another pointer. -/
def writeSliceElem (m : CacheMem) (sid i addr : Nat) : CacheMem :=
  { m with slices := m.slices.set sid ((sliceContents m sid).set i addr) }

/-- A caller mutation through one of the returned TableInfo pointers:
overwriting the pointed-to value. -/
def writeInfo (m : CacheMem) (addr : Nat) (v : TableInfo) : CacheMem :=
  { m with infos := m.infos.set addr v }

/-- The table list a later cacheGet exposes: the cached pointer slice with
every pointer dereferenced. -/
def observeCache (m : CacheMem) (c : CacheState) : List TableInfo :=
  (sliceContents m c.tablesRef).map (fun a => m.infos.getD a ⟨[], [], []⟩)

/-- Leading-star stripping at the top of scanChunk: records whether at
least one star was consumed. -/
def stripStars : GoStr → Bool × GoStr
  | [] => (false, [])
  | c :: rest =>
    if c = '*' then (true, (stripStars rest).2)
    else (false, c :: rest)

/-- The Scan loop of scanChunk: walks the pattern keeping an in-range
flag, skipping an escaped character after a backslash, and stops at an
unbracketed star; returns the chunk and the remaining pattern. -/
def scanChunkBody : GoStr → Bool → GoStr × GoStr
  | [], _ => ([], [])
  | '\\' :: [], _ => (['\\'], [])
  | '\\' :: d :: rest, inrange =>
    let r := scanChunkBody rest inrange
    ('\\' :: d :: r.1, r.2)
  | '[' :: rest, _ =>
    let r := scanChunkBody rest true
    ('[' :: r.1, r.2)
  | ']' :: rest, _ =>
    let r := scanChunkBody rest false
    (']' :: r.1, r.2)
  | '*' :: rest, inrange =>
    if inrange then
      let r := scanChunkBody rest true
      ('*' :: r.1, r.2)
    else ([], '*' :: rest)
  | c :: rest, inrange =>
    let r := scanChunkBody rest inrange
    (c :: r.1, r.2)

/-- Embedding of path.Match scanChunk: strips leading stars then scans one
chunk up to the next unbracketed star. -/
def scanChunk (p : GoStr) : Bool × GoStr × GoStr :=
  let s := stripStars p
  let r := scanChunkBody s.2 false
  (s.1, r.1, r.2)

/-- Embedding of path.Match getEsc: reads one possibly-escaped character
of a character class, failing on a malformed class (empty, a leading
dash or closing bracket, a trailing backslash, or a class that ends
immediately after the character). -/
def getEsc : GoStr → Except Unit (Char × GoStr)
  | [] => .error ()
  | c :: rest =>
    if c = '-' || c = ']' then .error ()
    else if c = '\\' then
      match rest with
      | [] => .error ()
      | d :: rest2 => if rest2 = [] then .error () else .ok (d, rest2)
    else if rest = [] then .error ()
    else .ok (c, rest)

/-- The character-class range loop of matchChunk: consumes lo-hi ranges
until the closing bracket, accumulating whether the candidate character
matched any range; fueled, with fuel at least the chunk length so
exhaustion is unreachable. -/
def parseClassRanges : Nat → GoStr → Char → Nat → Bool → Except Unit (GoStr × Bool)
  | 0, _, _, _, _ => .error ()
  | fuel + 1, chunk, r, nrange, matched =>
    match chunk with
    | ']' :: rest =>
      if 0 < nrange then .ok (rest, matched) else .error ()
    | _ =>
      match getEsc chunk with
      | .error _ => .error ()
      | .ok (lo, rest1) =>
        match rest1 with
        | '-' :: rest2 =>
          match getEsc rest2 with
          | .error _ => .error ()
          | .ok (hi, rest3) =>
            parseClassRanges fuel rest3 r (nrange + 1) (matched || (lo ≤ r && r ≤ hi))
        | _ =>
          parseClassRanges fuel rest1 r (nrange + 1) (matched || (lo ≤ r && r ≤ lo))

/-- The main loop of path.Match matchChunk: matches a star-free chunk
against the head of the string, carrying the failed flag the source uses
to keep scanning for pattern errors after a mismatch.  Returns the
remaining string on success, none on a plain mismatch, and an error on a
bad pattern. -/
def matchChunkLoop : Nat → GoStr → GoStr → Bool → Except Unit (Option GoStr)
  | 0, _, _, _ => .error ()
  | fuel + 1, chunk, s, failed =>
    match chunk with
    | [] => if failed then .ok none else .ok (some s)
    | '[' :: chunkRest =>
      let failed1 := failed || decide (s = [])
      let r : Char := if failed1 then Char.ofNat 0 else s.headD (Char.ofNat 0)
      let s1 := if failed1 then s else s.tail
      let nc : Bool × GoStr :=
        match chunkRest with
        | '^' :: cr => (true, cr)
        | _ => (false, chunkRest)
      match parseClassRanges fuel nc.2 r 0 false with
      | .error _ => .error ()
      | .ok (chunk2, matched) =>
        matchChunkLoop fuel chunk2 s1 (failed1 || (matched == nc.1))
    | '?' :: chunkRest =>
      let failed1 := failed || decide (s = [])
      let failed2 := if failed1 then true else decide (s.headD (Char.ofNat 0) = '/')
      let s1 := if failed1 then s else s.tail
      matchChunkLoop fuel chunkRest s1 failed2
    | '\\' :: chunkRest =>
      match chunkRest with
      | [] => .error ()
      | d :: chunkRest2 =>
        let failed1 := failed || decide (s = [])
        let failed2 := if failed1 then true else decide (¬ s.headD (Char.ofNat 0) = d)
        let s1 := if failed1 then s else s.tail
        matchChunkLoop fuel chunkRest2 s1 failed2
    | c :: chunkRest =>
      let failed1 := failed || decide (s = [])
      let failed2 := if failed1 then true else decide (¬ s.headD (Char.ofNat 0) = c)
      let s1 := if failed1 then s else s.tail
      matchChunkLoop fuel chunkRest s1 failed2

/-- Embedding of path.Match matchChunk, with enough fuel for its chunk. -/
def matchChunk (chunk s : GoStr) : Except Unit (Option GoStr) :=
  matchChunkLoop (chunk.length + 1) chunk s false

/-- The star-backtracking loop of path.Match: tries to match the chunk at
every later position of the string, never skipping past a separator, and
when the chunk is the last one insists the whole string be consumed. -/
def starSearch : GoStr → GoStr → Bool → Except Unit (Option GoStr)
  | _, [], _ => .ok none
  | chunk, c :: nameRest, restEmpty =>
    if c = '/' then .ok none
    else
      match matchChunk chunk nameRest with
      | .error _ => .error ()
      | .ok (some t) =>
        if restEmpty && decide (¬ t = []) then starSearch chunk nameRest restEmpty
        else .ok (some t)
      | .ok none => starSearch chunk nameRest restEmpty

/-- The outer Pattern loop of path.Match: peels one chunk per iteration,
handling a trailing bare star specially, accepting a chunk match that
either leaves pattern to process or consumes the whole string, and
otherwise backtracking through star positions; fueled, with fuel at least
the pattern length so exhaustion is unreachable. -/
def goMatchLoop : Nat → GoStr → GoStr → Except Unit Bool
  | 0, _, _ => .error ()
  | fuel + 1, pattern, name =>
    match pattern with
    | [] => .ok (decide (name = []))
    | _ =>
      let scanned := scanChunk pattern
      let star := scanned.1
      let chunk := scanned.2.1
      let rest := scanned.2.2
      if star && decide (chunk = []) then .ok (decide (¬ '/' ∈ name))
      else
        match matchChunk chunk name with
        | .error _ => .error ()
        | .ok (some t) =>
          if decide (t = []) || decide (¬ rest = []) then goMatchLoop fuel rest t
          else if star then
            match starSearch chunk name (decide (rest = [])) with
            | .error _ => .error ()
            | .ok (some t2) => goMatchLoop fuel rest t2
            | .ok none => .ok false
          else .ok false
        | .ok none =>
          if star then
            match starSearch chunk name (decide (rest = [])) with
            | .error _ => .error ()
            | .ok (some t2) => goMatchLoop fuel rest t2
            | .ok none => .ok false
          else .ok false

/-- Embedding of filepath.Match on a unix separator, with enough fuel for
its pattern. -/
def goPathMatch (pattern name : GoStr) : Except Unit Bool :=
  goMatchLoop (pattern.length + 1) pattern name

/-- Embedding of engine.matchesPattern: filepath.Match with a malformed
pattern treated as no match. -/
def matchesPattern (identifier pattern : GoStr) : Bool :=
  match goPathMatch pattern identifier with
  | .error _ => false
  | .ok b => b

/-- Embedding of engine.tableFilter: the configured pattern lists and the
hasIncludes flag computed at construction. -/
structure TableFilterCfg where
  includePatterns : List GoStr
  excludePatterns : List GoStr
  hasIncludes : Bool
deriving DecidableEq, Repr

/-- Embedding of engine.NewTableFilter. -/
def newTableFilter (inc exc : List GoStr) : TableFilterCfg :=
  ⟨inc, exc, decide (0 < inc.length)⟩

/-- Embedding of tableFilter.shouldMonitor: the no-patterns fast path,
then the exclude loop, then the include loop when includes are
configured. -/
def shouldMonitor (f : TableFilterCfg) (tid : TableIdentifier) : Bool :=
  let identifier := tid.toGoString
  if !f.hasIncludes && decide (f.excludePatterns.length = 0) then true
  else if f.excludePatterns.any (fun p => matchesPattern identifier p) then false
  else if f.hasIncludes then f.includePatterns.any (fun p => matchesPattern identifier p)
  else true

/-- Embedding of tableFilter.FilterTables: keeps, in order, the
identifiers of the tables shouldMonitor accepts. -/
def filterTables (f : TableFilterCfg) (tables : List TableInfo) : List TableIdentifier :=
  tables.foldl
    (fun acc t =>
      let tid : TableIdentifier := ⟨t.ns, t.database, t.name⟩
      if shouldMonitor f tid then acc ++ [tid] else acc)
    []

/-- The ns1:db1:orders table of the specification example scenario. -/
def tidOrders : TableIdentifier := ⟨gs "ns1", gs "db1", gs "orders"⟩

/-- The ns1:db1:users table of the specification example scenario. -/
def tidUsers : TableIdentifier := ⟨gs "ns1", gs "db1", gs "users"⟩

/-- Table info record for the orders table. -/
def ordersInfo : TableInfo := ⟨gs "orders", gs "db1", gs "ns1"⟩

/-- Table info record for the users table. -/
def usersInfo : TableInfo := ⟨gs "users", gs "db1", gs "ns1"⟩

/-- A provisioned side-table map entry for the users table. -/
def usersStatsEntry : GoStr × StatsTableState :=
  (tidUsers.toGoString, ⟨tidUsers, getStatsTableName (gs "stats_") tidUsers.table⟩)

/-
Theorems.  Each claim of the specification is settled below; helper
lemmas come before the claim theorems that use them.
-/

/-- Splitting never yields an empty part list. -/
theorem stringsSplitChar_ne_nil (sep : Char) (s : GoStr) :
    stringsSplitChar sep s ≠ [] := by
  induction s with
  | nil => simp [stringsSplitChar]
  | cons c rest ih =>
    simp only [stringsSplitChar]
    by_cases h : c = sep
    · simp [h]
    · simp only [h, if_false]
      cases hr : stringsSplitChar sep rest with
      | nil => simp
      | cons a b => simp

/-- Splitting a separator-free string yields the single whole part. -/
theorem stringsSplitChar_no_sep (sep : Char) (s : GoStr) (h : sep ∉ s) :
    stringsSplitChar sep s = [s] := by
  induction s with
  | nil => rfl
  | cons c rest ih =>
    simp only [List.mem_cons, not_or] at h
    have hc : ¬ c = sep := fun hcs => h.1 hcs.symm
    simp only [stringsSplitChar, hc, if_false, ih h.2]

/-- Splitting past a separator-free prefix peels that prefix off as the
first part. -/
theorem stringsSplitChar_append (sep : Char) (a r : GoStr) (h : sep ∉ a) :
    stringsSplitChar sep (a ++ sep :: r) = a :: stringsSplitChar sep r := by
  induction a with
  | nil => simp [stringsSplitChar]
  | cons c rest ih =>
    simp only [List.mem_cons, not_or] at h
    have hc : ¬ c = sep := fun hcs => h.1 hcs.symm
    simp only [List.cons_append, stringsSplitChar, hc, if_false]
    rw [List.append_eq, ih h.2]

/-- Claim C10: for a table identifier whose namespace, database, and table
contain no colon, ParseTableIdentifier inverts the canonical String form,
and the canonical string form is injective on such identifiers. -/
theorem parseTableIdentifier_roundtrip (t : TableIdentifier)
    (h1 : ':' ∉ t.ns) (h2 : ':' ∉ t.db) (h3 : ':' ∉ t.table) :
    parseTableIdentifier t.toGoString = some t ∧
    ∀ u : TableIdentifier, ':' ∉ u.ns → ':' ∉ u.db → ':' ∉ u.table →
      t.toGoString = u.toGoString → t = u := by
  have key : ∀ v : TableIdentifier, ':' ∉ v.ns → ':' ∉ v.db → ':' ∉ v.table →
      parseTableIdentifier v.toGoString = some v := by
    intro v g1 g2 g3
    have hsplit : stringsSplitChar ':' v.toGoString = [v.ns, v.db, v.table] := by
      unfold TableIdentifier.toGoString
      rw [List.append_assoc, List.cons_append,
        stringsSplitChar_append ':' v.ns _ g1,
        stringsSplitChar_append ':' v.db _ g2,
        stringsSplitChar_no_sep ':' v.table g3]
    simp [parseTableIdentifier, hsplit]
  refine ⟨key t h1 h2 h3, ?_⟩
  intro u g1 g2 g3 heq
  have ht := key t h1 h2 h3
  have hu := key u g1 g2 g3
  rw [heq, hu] at ht
  exact (Option.some_injective _ ht).symm

/-- Witness for claim C10 at the orders table identifier. -/
theorem parseTableIdentifier_roundtrip_witness :
    parseTableIdentifier tidOrders.toGoString = some tidOrders ∧
    ∀ u : TableIdentifier, ':' ∉ u.ns → ':' ∉ u.db → ':' ∉ u.table →
      tidOrders.toGoString = u.toGoString → tidOrders = u :=
  parseTableIdentifier_roundtrip tidOrders (by decide) (by decide) (by decide)

/-- The flag-setting pass of isGraphRecord computes the two key-existence
checks. -/
theorem graphFold (r : GoRecord) (b1 b2 : Bool) :
    r.foldl
      (fun (fl : Bool × Bool) p =>
        (fl.1 || decide (p.1 = gs "in"), fl.2 || decide (p.1 = gs "out")))
      (b1, b2)
    = (b1 || r.any (fun p => decide (p.1 = gs "in")),
       b2 || r.any (fun p => decide (p.1 = gs "out"))) := by
  induction r generalizing b1 b2 with
  | nil => simp
  | cons p rest ih => simp [List.any_cons, ih, Bool.or_assoc]

/-- The counting pass of isKeyValueRecord computes the number of non-id
fields. -/
theorem kvFold (r : GoRecord) (n : Nat) :
    r.foldl (fun n p => if p.1 = gs "id" then n else n + 1) n
      = n + (r.filter (fun p => decide (¬ p.1 = gs "id"))).length := by
  induction r generalizing n with
  | nil => simp
  | cons p rest ih =>
    by_cases h : p.1 = gs "id" <;> simp [h, ih] <;> omega

/-- The counting pass of isRelationalRecord computes the numbers of non-id
scalar and non-id complex fields. -/
theorem relFold (r : GoRecord) (c : Nat × Nat) :
    r.foldl
      (fun (c : Nat × Nat) p =>
        if p.1 = gs "id" then c
        else
          match p.2 with
          | .complex => (c.1, c.2 + 1)
          | .scalar => (c.1 + 1, c.2))
      c
    = (c.1 + (r.filter
        (fun p => decide (¬ p.1 = gs "id") && decide (p.2 = GoValue.scalar))).length,
       c.2 + (r.filter
        (fun p => decide (¬ p.1 = gs "id") && decide (p.2 = GoValue.complex))).length) := by
  induction r generalizing c with
  | nil => simp
  | cons p rest ih =>
    by_cases h : p.1 = gs "id"
    · simp [h, ih]
    · cases hv : p.2 <;> simp [h, hv, ih] <;> omega

/-- Claim C4, counterexample to the stated key-value condition: a record
holding only its identifier has at most two fields excluding the
identifier, yet the source classifier makes it a document while the claim
as stated makes it key-value. -/
theorem detectFromRecord_id_only_counterexample :
    detectFromRecord [(gs "id", GoValue.scalar)] = OperationType.document ∧
    claimClassifierC4 [(gs "id", GoValue.scalar)] = OperationType.keyValue ∧
    ¬ detectFromRecord [(gs "id", GoValue.scalar)]
        = claimClassifierC4 [(gs "id", GoValue.scalar)] := by decide

/-- Claim C4 as amended: the classifier applies exactly the claimed
precedence once the key-value branch also requires at least one field
excluding the identifier: in/out makes graph regardless of other fields;
else one or two non-identifier fields make key-value; else at least three
scalar fields with at most one nested/array field make relational; else
document. -/
theorem detectFromRecord_precedence (r : GoRecord) :
    detectFromRecord r = amendedClassifierC4 r := by
  have hg : isGraphRecord r
      = (r.any (fun p => decide (p.1 = gs "in")) &&
         r.any (fun p => decide (p.1 = gs "out"))) := by
    unfold isGraphRecord
    rw [graphFold]
    simp
  have hkv : kvFieldCount r = (r.filter (fun p => decide (¬ p.1 = gs "id"))).length := by
    unfold kvFieldCount
    rw [kvFold]
    simp
  have hrel : relCounts r
      = ((r.filter
            (fun p => decide (¬ p.1 = gs "id") && decide (p.2 = GoValue.scalar))).length,
         (r.filter
            (fun p => decide (¬ p.1 = gs "id") && decide (p.2 = GoValue.complex))).length) := by
    unfold relCounts
    rw [relFold]
    simp
  unfold detectFromRecord amendedClassifierC4 isKeyValueRecord isRelationalRecord
  rw [hg, hkv, hrel]
  simp only [Bool.and_eq_true, decide_eq_true_eq]
  split_ifs <;> first
    | rfl
    | (exfalso; omega)

/-- Storing at a key absent from the map leaves the map unchanged. -/
theorem setEntry_of_not_mem (a : OperationAccumulator) (k : GoStr)
    (v : TableOperationMetrics) (h : ¬ k ∈ a.map Prod.fst) : setEntry a k v = a := by
  unfold setEntry
  induction a with
  | nil => rfl
  | cons p rest ih =>
    simp only [List.map_cons, List.mem_cons, not_or] at h
    simp only [List.map_cons]
    rw [if_neg (fun hp => h.1 hp.symm), ih h.2]

/-- Storing at a key never changes the key list of the map. -/
theorem setEntry_keys (a : OperationAccumulator) (k : GoStr)
    (v : TableOperationMetrics) :
    (setEntry a k v).map Prod.fst = a.map Prod.fst := by
  unfold setEntry
  induction a with
  | nil => rfl
  | cons p rest ih =>
    simp only [List.map_cons, ih, List.cons.injEq, and_true]
    by_cases h : p.1 = k <;> simp [h]

/-- Filtering for one key ignores a store made at a different key. -/
theorem filter_setEntry_ne (a : OperationAccumulator) (k0 k : GoStr)
    (v : TableOperationMetrics) (h : ¬ k0 = k) :
    (setEntry a k0 v).filter (fun p => decide (p.1 = k))
      = a.filter (fun p => decide (p.1 = k)) := by
  unfold setEntry
  induction a with
  | nil => rfl
  | cons p rest ih =>
    by_cases hp : p.1 = k0
    · simp only [List.map_cons, hp, if_true, List.filter_cons]
      have h1 : decide ((k0, v).1 = k) = false := by simpa using h
      have h2 : decide (p.1 = k) = false := by simpa [hp] using h
      simp [h1, h2, ih]
    · simp only [List.map_cons, hp, if_false, List.filter_cons, ih]

/-- A key absent from the map filters to nothing. -/
theorem filter_of_not_mem (a : OperationAccumulator) (k : GoStr)
    (h : ¬ k ∈ a.map Prod.fst) :
    a.filter (fun p => decide (p.1 = k)) = [] := by
  induction a with
  | nil => rfl
  | cons p rest ih =>
    simp only [List.map_cons, List.mem_cons, not_or] at h
    have h1 : decide (p.1 = k) = false := by
      simpa using fun hp => h.1 hp.symm
    simp [List.filter_cons, h1, ih h.2]

/-- With pairwise distinct keys, a successful lookup filters to exactly
the found entry, and the store at that key filters to exactly the stored
entry. -/
theorem filter_setEntry_eq (a : OperationAccumulator) (k : GoStr)
    (v : TableOperationMetrics) (q : GoStr × TableOperationMetrics)
    (hnd : (a.map Prod.fst).Nodup)
    (hf : a.find? (fun p => decide (p.1 = k)) = some q) :
    a.filter (fun p => decide (p.1 = k)) = [q] ∧
    (setEntry a k v).filter (fun p => decide (p.1 = k)) = [(k, v)] := by
  induction a with
  | nil => simp at hf
  | cons p rest ih =>
    simp only [List.map_cons, List.nodup_cons] at hnd
    by_cases hp : p.1 = k
    · have hq : q = p := by
        have := List.find?_cons_of_pos (p := fun p => decide (p.1 = k))
          (l := rest) (a := p) (by simpa using hp)
        rw [this] at hf
        exact (Option.some_injective _ hf).symm
      have hrest : ¬ k ∈ rest.map Prod.fst := by
        rw [← hp]
        exact hnd.1
      constructor
      · simp [List.filter_cons, hp, hq, filter_of_not_mem rest k hrest]
      · have hclean : setEntry rest k v = rest := setEntry_of_not_mem rest k v hrest
        unfold setEntry
        simp only [List.map_cons, hp, if_true]
        have : (List.map (fun p => if p.1 = k then (k, v) else p) rest)
            = setEntry rest k v := rfl
        rw [this, hclean]
        simp [List.filter_cons, filter_of_not_mem rest k hrest]
    · have hf2 : rest.find? (fun p => decide (p.1 = k)) = some q := by
        have := List.find?_cons_of_neg (p := fun p => decide (p.1 = k))
          (l := rest) (a := p) (by simpa using hp)
        rw [this] at hf
        exact hf
      have hrec := ih hnd.2 hf2
      constructor
      · simp [List.filter_cons, hp, hrec.1]
      · unfold setEntry
        simp only [List.map_cons, hp, if_false]
        have : (List.map (fun p => if p.1 = k then (k, v) else p) rest)
            = setEntry rest k v := rfl
        rw [List.filter_cons]
        simp only [this]
        simp [hp, hrec.2]

/-- Lookup is the value projection of the underlying search. -/
theorem lookupEntry_eq_map (a : OperationAccumulator) (k : GoStr) :
    lookupEntry a k = (a.find? (fun p => decide (p.1 = k))).map Prod.snd := by
  unfold lookupEntry
  cases a.find? (fun p => decide (p.1 = k)) <;> rfl

/-- Lookup misses exactly when the key is absent. -/
theorem lookupEntry_none_iff (a : OperationAccumulator) (k : GoStr) :
    lookupEntry a k = none ↔ ¬ k ∈ a.map Prod.fst := by
  rw [lookupEntry_eq_map, Option.map_eq_none', List.find?_eq_none]
  constructor
  · intro h hk
    obtain ⟨p, hp, hpk⟩ := List.mem_map.mp hk
    exact absurd (by simpa using hpk) (by simpa using h p hp)
  · intro h p hp
    simp only [decide_eq_true_eq]
    intro hpk
    exact h (List.mem_map.mpr ⟨p, hp, hpk⟩)

/-- A successful lookup comes from an entry of the map stored at the
looked-up key. -/
theorem lookupEntry_some (a : OperationAccumulator) (k : GoStr)
    (m : TableOperationMetrics) (h : lookupEntry a k = some m) :
    ∃ q, a.find? (fun p => decide (p.1 = k)) = some q ∧ q.1 = k ∧ q.2 = m ∧ q ∈ a := by
  rw [lookupEntry_eq_map] at h
  cases hf : a.find? (fun p => decide (p.1 = k)) with
  | none => rw [hf] at h; simp at h
  | some q =>
    rw [hf] at h
    have hqk : q.1 = k := by simpa using List.find?_some hf
    exact ⟨q, rfl, hqk, Option.some.inj h, List.mem_of_find?_eq_some hf⟩

/-- Record on a missed key prepends the fresh bumped entry. -/
theorem recordOp_eq_cons (a : OperationAccumulator) (t : TableIdentifier)
    (op : OperationType) (act : OperationAction)
    (h : lookupEntry a (makeKey t op) = none) :
    recordOp a t op act = (makeKey t op, applyAction (freshMetrics t op) act) :: a := by
  unfold recordOp
  simp [h]

/-- Record on a hit key stores the bumped entry in place. -/
theorem recordOp_eq_set (a : OperationAccumulator) (t : TableIdentifier)
    (op : OperationType) (act : OperationAction) (m : TableOperationMetrics)
    (h : lookupEntry a (makeKey t op) = some m) :
    recordOp a t op act = setEntry a (makeKey t op) (applyAction m act) := by
  unfold recordOp
  simp [h]

/-- Exactness of one wrapped int64 step inside the representable range. -/
theorem wrapInt64_eq_self (x : Int) (h1 : -(2 ^ 63) ≤ x) (h2 : x < 2 ^ 63) :
    wrapInt64 x = x := by
  unfold wrapInt64
  omega

/-- One Record call changes the per-key sum of a counter by that call's
increment and nothing else, for any counter projection compatible with
the action switch, as long as no stored counter is about to wrap. -/
theorem accMetricsBy_recordOp (f : TableOperationMetrics → Int)
    (delta : OperationAction → Int)
    (hf : ∀ m act, (delta act = 0 ∧ f (applyAction m act) = f m) ∨
      (delta act = 1 ∧ f (applyAction m act) = wrapInt64 (f m + 1)))
    (hf0 : ∀ t op, f (freshMetrics t op) = 0)
    (a : OperationAccumulator) (t : TableIdentifier) (op : OperationType)
    (act : OperationAction) (k : GoStr) (hnd : (a.map Prod.fst).Nodup)
    (hbound : ∀ p ∈ a, 0 ≤ f p.2 ∧ f p.2 + 1 < 2 ^ 63) :
    accMetricsBy f (recordOp a t op act) k
      = accMetricsBy f a k + (if makeKey t op = k then delta act else 0) := by
  have happly : ∀ m, 0 ≤ f m → f m + 1 < 2 ^ 63 →
      f (applyAction m act) = f m + delta act := by
    intro m h1 h2
    rcases hf m act with ⟨hd, hfa⟩ | ⟨hd, hfa⟩
    · rw [hfa, hd]
      omega
    · rw [hfa, hd, wrapInt64_eq_self (f m + 1) (by omega) h2]
  have hfresh : f (applyAction (freshMetrics t op) act) = delta act := by
    have h0 := hf0 t op
    rw [happly (freshMetrics t op) (by omega) (by omega), h0]
    omega
  cases hl : lookupEntry a (makeKey t op) with
  | none =>
    rw [recordOp_eq_cons a t op act hl]
    unfold accMetricsBy
    rw [List.filter_cons]
    by_cases hk : makeKey t op = k
    · have hd : decide ((makeKey t op, applyAction (freshMetrics t op) act).1 = k) = true := by
        simpa using hk
      rw [hd]
      simp only [if_true, List.map_cons, List.sum_cons]
      rw [hfresh, if_pos hk]
      omega
    · have hd : decide ((makeKey t op, applyAction (freshMetrics t op) act).1 = k) = false := by
        simpa using hk
      rw [hd]
      simp [hk]
  | some m =>
    rw [recordOp_eq_set a t op act m hl]
    obtain ⟨q, hfq, hqk, hqm, hqmem⟩ := lookupEntry_some a (makeKey t op) m hl
    by_cases hk : makeKey t op = k
    · subst hk
      have hpair := filter_setEntry_eq a (makeKey t op) (applyAction m act) q hnd hfq
      unfold accMetricsBy
      rw [hpair.2, hpair.1]
      simp only [List.map_cons, List.map_nil, List.sum_cons, List.sum_nil, if_pos rfl]
      have hqb := hbound q hqmem
      rw [hqm] at hqb
      rw [happly m hqb.1 hqb.2, hqm]
      simp
    · unfold accMetricsBy
      rw [filter_setEntry_ne a (makeKey t op) k (applyAction m act) hk]
      simp [hk]

/-- Every entry of the map after one Record call is an old entry, an old
entry with the action applied, or the fresh entry with the action
applied. -/
theorem recordOp_entries (a : OperationAccumulator) (t : TableIdentifier)
    (op : OperationType) (act : OperationAction) :
    ∀ p ∈ recordOp a t op act, p ∈ a ∨
      (∃ q ∈ a, p.2 = applyAction q.2 act) ∨
      p.2 = applyAction (freshMetrics t op) act := by
  cases hl : lookupEntry a (makeKey t op) with
  | none =>
    rw [recordOp_eq_cons a t op act hl]
    intro p hp
    rcases List.mem_cons.mp hp with rfl | hp2
    · exact Or.inr (Or.inr rfl)
    · exact Or.inl hp2
  | some m =>
    rw [recordOp_eq_set a t op act m hl]
    obtain ⟨q, hfq, hqk, hqm, hqmem⟩ := lookupEntry_some a _ m hl
    intro p hp
    unfold setEntry at hp
    obtain ⟨p0, hp0mem, hp0eq⟩ := List.mem_map.mp hp
    by_cases h0 : p0.1 = makeKey t op
    · rw [if_pos h0] at hp0eq
      subst hp0eq
      refine Or.inr (Or.inl ⟨q, hqmem, ?_⟩)
      rw [hqm]
    · rw [if_neg h0] at hp0eq
      subst hp0eq
      exact Or.inl hp0mem

/-- One Record call keeps every stored counter inside the no-wrap range
left for the remaining events. -/
theorem recordOp_bound (f : TableOperationMetrics → Int)
    (delta : OperationAction → Int)
    (hf : ∀ m act, (delta act = 0 ∧ f (applyAction m act) = f m) ∨
      (delta act = 1 ∧ f (applyAction m act) = wrapInt64 (f m + 1)))
    (hf0 : ∀ t op, f (freshMetrics t op) = 0)
    (a : OperationAccumulator) (t : TableIdentifier) (op : OperationType)
    (act : OperationAction) (N : Int) (hN : 0 ≤ N) (hN63 : N + 1 < 2 ^ 63)
    (hbound : ∀ p ∈ a, 0 ≤ f p.2 ∧ f p.2 + N + 1 < 2 ^ 63) :
    ∀ p ∈ recordOp a t op act, 0 ≤ f p.2 ∧ f p.2 + N < 2 ^ 63 := by
  intro p hp
  rcases recordOp_entries a t op act p hp with hmem | ⟨q, hq, hpq⟩ | hpq
  · have hb := hbound p hmem
    omega
  · have hqb := hbound q hq
    rcases hf q.2 act with ⟨_, hfa⟩ | ⟨_, hfa⟩
    · rw [hpq, hfa]
      omega
    · rw [hpq, hfa, wrapInt64_eq_self (f q.2 + 1) (by omega) (by omega)]
      omega
  · have h0 := hf0 t op
    rcases hf (freshMetrics t op) act with ⟨_, hfa⟩ | ⟨_, hfa⟩
    · rw [hpq, hfa]
      omega
    · rw [hpq, hfa, wrapInt64_eq_self (f (freshMetrics t op) + 1) (by omega) (by omega)]
      omega

/-- Record preserves the distinct-keys invariant of the map. -/
theorem recordOp_nodup (a : OperationAccumulator) (t : TableIdentifier)
    (op : OperationType) (act : OperationAction)
    (hnd : (a.map Prod.fst).Nodup) :
    ((recordOp a t op act).map Prod.fst).Nodup := by
  cases hl : lookupEntry a (makeKey t op) with
  | none =>
    rw [recordOp_eq_cons a t op act hl]
    have hnotmem : ¬ makeKey t op ∈ a.map Prod.fst := (lookupEntry_none_iff a _).mp hl
    simp [List.nodup_cons, hnotmem, hnd]
  | some m =>
    rw [recordOp_eq_set a t op act m hl, setEntry_keys]
    exact hnd

/-- Record creates the counter entry on first use and otherwise leaves the
key set alone. -/
theorem mem_keys_recordOp (a : OperationAccumulator) (t : TableIdentifier)
    (op : OperationType) (act : OperationAction) (k : GoStr) :
    k ∈ (recordOp a t op act).map Prod.fst ↔
      k = makeKey t op ∨ k ∈ a.map Prod.fst := by
  cases hl : lookupEntry a (makeKey t op) with
  | none =>
    rw [recordOp_eq_cons a t op act hl]
    simp only [List.map_cons, List.mem_cons]
  | some m =>
    rw [recordOp_eq_set a t op act m hl, setEntry_keys]
    obtain ⟨q, hfq, hqk, _, hqmem⟩ := lookupEntry_some a _ m hl
    constructor
    · exact Or.inr
    · rintro (rfl | h)
      · exact List.mem_map.mpr ⟨q, hqmem, hqk⟩
      · exact h

/-- Bumping a counter does not change the key an entry answers to. -/
theorem metricsKey_applyAction (m : TableOperationMetrics) (act : OperationAction) :
    metricsKey (applyAction m act) = metricsKey m := by
  cases act <;> rfl

/-- The fresh entry answers to the key it is stored at. -/
theorem metricsKey_fresh (t : TableIdentifier) (op : OperationType) :
    metricsKey (freshMetrics t op) = makeKey t op := rfl

/-- Record preserves the invariant that every entry answers to its own
key. -/
theorem recordOp_keyInv (a : OperationAccumulator) (t : TableIdentifier)
    (op : OperationType) (act : OperationAction)
    (hinv : ∀ p ∈ a, metricsKey p.2 = p.1) :
    ∀ p ∈ recordOp a t op act, metricsKey p.2 = p.1 := by
  cases hl : lookupEntry a (makeKey t op) with
  | none =>
    rw [recordOp_eq_cons a t op act hl]
    intro p hp
    rcases List.mem_cons.mp hp with rfl | hp2
    · simp [metricsKey_applyAction, metricsKey_fresh]
    · exact hinv p hp2
  | some m =>
    rw [recordOp_eq_set a t op act m hl]
    obtain ⟨q, hfq, hqk, hqm, hqmem⟩ := lookupEntry_some a _ m hl
    intro p hp
    unfold setEntry at hp
    obtain ⟨p0, hp0mem, hp0eq⟩ := List.mem_map.mp hp
    by_cases h0 : p0.1 = makeKey t op
    · rw [if_pos h0] at hp0eq
      subst hp0eq
      simp only [metricsKey_applyAction]
      rw [← hqm, hinv q hqmem, hqk]
    · rw [if_neg h0] at hp0eq
      subst hp0eq
      exact hinv p0 hp0mem

/-- Cons form of the per-key event count. -/
theorem countEvents_cons (e : RecordEvent) (es : List RecordEvent) (k : GoStr)
    (act0 : OperationAction) :
    countEvents (e :: es) k act0
      = (if makeKey e.tid e.op = k ∧ e.act = act0 then (1 : Int) else 0)
        + countEvents es k act0 := by
  unfold countEvents
  rw [List.filter_cons]
  by_cases h1 : makeKey e.tid e.op = k <;> by_cases h2 : e.act = act0 <;>
    simp [h1, h2] <;> push_cast <;> omega

/-- A fold of Record calls shorter than the int64 wrap threshold adds
exactly the per-key event count to any compatible counter sum. -/
theorem accMetricsBy_foldRecords (f : TableOperationMetrics → Int)
    (delta : OperationAction → Int)
    (hf : ∀ m act, (delta act = 0 ∧ f (applyAction m act) = f m) ∨
      (delta act = 1 ∧ f (applyAction m act) = wrapInt64 (f m + 1)))
    (hf0 : ∀ t op, f (freshMetrics t op) = 0)
    (act0 : OperationAction)
    (hdelta : ∀ act, delta act = if act = act0 then (1 : Int) else 0)
    (events : List RecordEvent) :
    ∀ a : OperationAccumulator, (a.map Prod.fst).Nodup →
      ((events.length : Int) < 2 ^ 63) →
      (∀ p ∈ a, 0 ≤ f p.2 ∧ f p.2 + (events.length : Int) < 2 ^ 63) →
      ∀ k,
      accMetricsBy f (events.foldl (fun a e => recordOp a e.tid e.op e.act) a) k
        = accMetricsBy f a k + countEvents events k act0 := by
  induction events with
  | nil =>
    intro a _ _ _ k
    simp [countEvents]
  | cons e es ih =>
    intro a hnd hlen hbound k
    simp only [List.foldl_cons]
    rw [List.length_cons] at hlen
    have hlen3 : ((es.length : Int)) < 2 ^ 63 := by omega
    have hb1 : ∀ p ∈ a, 0 ≤ f p.2 ∧ f p.2 + 1 < 2 ^ 63 := by
      intro p hp
      have hb := hbound p hp
      rw [List.length_cons] at hb
      omega
    have hb2 : ∀ p ∈ recordOp a e.tid e.op e.act,
        0 ≤ f p.2 ∧ f p.2 + (es.length : Int) < 2 ^ 63 := by
      refine recordOp_bound f delta hf hf0 a e.tid e.op e.act (es.length : Int)
        (by omega) (by omega) ?_
      intro p hp
      have hb := hbound p hp
      rw [List.length_cons] at hb
      omega
    rw [ih (recordOp a e.tid e.op e.act) (recordOp_nodup a e.tid e.op e.act hnd)
        hlen3 hb2 k,
      accMetricsBy_recordOp f delta hf hf0 a e.tid e.op e.act k hnd hb1,
      countEvents_cons]
    have hind : (if makeKey e.tid e.op = k then delta e.act else 0)
        = (if makeKey e.tid e.op = k ∧ e.act = act0 then (1 : Int) else 0) := by
      by_cases h1 : makeKey e.tid e.op = k <;> by_cases h2 : e.act = act0 <;>
        simp [h1, h2, hdelta]
    rw [hind]
    omega

/-- A fold of Record calls has an entry for a key exactly when some event
hit that key. -/
theorem mem_keys_foldRecords (events : List RecordEvent) :
    ∀ (a : OperationAccumulator) (k : GoStr),
      (k ∈ (events.foldl (fun a e => recordOp a e.tid e.op e.act) a).map Prod.fst) ↔
        k ∈ a.map Prod.fst ∨ ∃ e ∈ events, makeKey e.tid e.op = k := by
  induction events with
  | nil =>
    intro a k
    simp only [List.foldl_nil]
    constructor
    · exact Or.inl
    · rintro (h | ⟨e, he, _⟩)
      · exact h
      · exact absurd he (List.not_mem_nil e)
  | cons e es ih =>
    intro a k
    simp only [List.foldl_cons, List.mem_cons]
    rw [ih]
    rw [mem_keys_recordOp]
    constructor
    · rintro ((rfl | h) | ⟨e2, he2, hk2⟩)
      · exact Or.inr ⟨e, Or.inl rfl, rfl⟩
      · exact Or.inl h
      · exact Or.inr ⟨e2, Or.inr he2, hk2⟩
    · rintro (h | ⟨e2, (rfl | he2), hk2⟩)
      · exact Or.inl (Or.inr h)
      · exact Or.inl (Or.inl hk2.symm)
      · exact Or.inr ⟨e2, he2, hk2⟩

/-- A fold of Record calls preserves the entry-key invariant. -/
theorem keyInv_foldRecords (events : List RecordEvent) :
    ∀ a : OperationAccumulator, (∀ p ∈ a, metricsKey p.2 = p.1) →
      ∀ p ∈ events.foldl (fun a e => recordOp a e.tid e.op e.act) a,
        metricsKey p.2 = p.1 := by
  induction events with
  | nil =>
    intro a h
    simp only [List.foldl_nil]
    exact h
  | cons e es ih =>
    intro a h
    simp only [List.foldl_cons]
    exact ih (recordOp a e.tid e.op e.act) (recordOp_keyInv a e.tid e.op e.act h)

/-- A fold of Record calls preserves the distinct-keys invariant. -/
theorem nodup_foldRecords (events : List RecordEvent) :
    ∀ a : OperationAccumulator, (a.map Prod.fst).Nodup →
      ((events.foldl (fun a e => recordOp a e.tid e.op e.act) a).map Prod.fst).Nodup := by
  induction events with
  | nil =>
    intro a h
    simp only [List.foldl_nil]
    exact h
  | cons e es ih =>
    intro a h
    simp only [List.foldl_cons]
    exact ih (recordOp a e.tid e.op e.act) (recordOp_nodup a e.tid e.op e.act h)

/-- The drained value list sums by reconstructed key exactly as the store
sums by entry key, given the entry-key invariant. -/
theorem sumMetricsBy_map_snd (f : TableOperationMetrics → Int)
    (a : OperationAccumulator) (k : GoStr)
    (hinv : ∀ p ∈ a, metricsKey p.2 = p.1) :
    sumMetricsBy f (a.map (fun p => p.2)) k = accMetricsBy f a k := by
  induction a with
  | nil => rfl
  | cons p rest ih =>
    have hp := hinv p (List.mem_cons_self p rest)
    have ihr := ih (fun q hq => hinv q (List.mem_cons_of_mem p hq))
    unfold sumMetricsBy accMetricsBy
    simp only [List.map_cons, List.filter_cons]
    have hcond : decide (metricsKey p.2 = k) = decide (p.1 = k) := by rw [hp]
    rw [hcond]
    by_cases hk : decide (p.1 = k) = true
    · rw [hk]
      simp only [if_true, List.map_cons, List.sum_cons]
      unfold sumMetricsBy accMetricsBy at ihr
      rw [ihr]
    · rw [Bool.not_eq_true] at hk
      rw [hk]
      simp only [Bool.false_eq_true, if_false]
      exact ihr

/-- The drained value list mentions a key exactly when the store has an
entry at it, given the entry-key invariant. -/
theorem exists_metricsKey_iff (a : OperationAccumulator) (k : GoStr)
    (hinv : ∀ p ∈ a, metricsKey p.2 = p.1) :
    (∃ m ∈ a.map (fun p => p.2), metricsKey m = k) ↔ k ∈ a.map Prod.fst := by
  constructor
  · rintro ⟨m, hm, hmk⟩
    obtain ⟨p, hp, hpm⟩ := List.mem_map.mp hm
    refine List.mem_map.mpr ⟨p, hp, ?_⟩
    rw [← hmk, ← hpm, hinv p hp]
  · intro hk
    obtain ⟨p, hp, hpk⟩ := List.mem_map.mp hk
    exact ⟨p.2, List.mem_map.mpr ⟨p, hp, rfl⟩, by rw [hinv p hp, hpk]⟩

/-- Claim C3: for every sequence of fewer than 2^63 Record calls (every
sequence the program can perform before its int64 counters would wrap)
followed by one drain, the returned counters equal the exact per-key sums
of the recorded increments, an entry exists exactly for the keys used
(created on first use), and a second drain with no intervening Record
calls returns an empty result.  Counter increments are modelled with Go
int64 wraparound. -/
theorem accumulator_drain_exact (events : List RecordEvent) (k : GoStr)
    (hlen : (events.length : Int) < 2 ^ 63) :
    sumCreates (getAndClear (runRecords events)).1 k = countEvents events k .create ∧
    sumUpdates (getAndClear (runRecords events)).1 k = countEvents events k .updateAct ∧
    sumDeletes (getAndClear (runRecords events)).1 k = countEvents events k .deleteAct ∧
    ((∃ m ∈ (getAndClear (runRecords events)).1, metricsKey m = k) ↔
      ∃ e ∈ events, makeKey e.tid e.op = k) ∧
    (getAndClear (getAndClear (runRecords events)).2).1 = [] := by
  have hinv : ∀ p ∈ runRecords events, metricsKey p.2 = p.1 :=
    keyInv_foldRecords events [] (by simp)
  have hnd0 : (([] : OperationAccumulator).map Prod.fst).Nodup := by simp
  have hfst : (getAndClear (runRecords events)).1 = (runRecords events).map (fun p => p.2) := rfl
  refine ⟨?_, ?_, ?_, ?_, rfl⟩
  · unfold sumCreates
    rw [hfst, sumMetricsBy_map_snd _ _ _ hinv]
    unfold runRecords
    rw [accMetricsBy_foldRecords (fun m => m.creates)
      (fun act => if act = .create then (1 : Int) else 0)
      (fun m act => by cases act <;> simp [applyAction])
      (fun t op => rfl) .create (fun act => rfl) events [] hnd0 hlen
      (fun p hp => absurd hp (List.not_mem_nil p)) k]
    simp [accMetricsBy]
  · unfold sumUpdates
    rw [hfst, sumMetricsBy_map_snd _ _ _ hinv]
    unfold runRecords
    rw [accMetricsBy_foldRecords (fun m => m.updates)
      (fun act => if act = .updateAct then (1 : Int) else 0)
      (fun m act => by cases act <;> simp [applyAction])
      (fun t op => rfl) .updateAct (fun act => rfl) events [] hnd0 hlen
      (fun p hp => absurd hp (List.not_mem_nil p)) k]
    simp [accMetricsBy]
  · unfold sumDeletes
    rw [hfst, sumMetricsBy_map_snd _ _ _ hinv]
    unfold runRecords
    rw [accMetricsBy_foldRecords (fun m => m.deletes)
      (fun act => if act = .deleteAct then (1 : Int) else 0)
      (fun m act => by cases act <;> simp [applyAction])
      (fun t op => rfl) .deleteAct (fun act => rfl) events [] hnd0 hlen
      (fun p hp => absurd hp (List.not_mem_nil p)) k]
    simp [accMetricsBy]
  · rw [hfst, exists_metricsKey_iff _ _ hinv]
    unfold runRecords
    rw [mem_keys_foldRecords events [] k]
    simp only [List.map_nil, List.not_mem_nil, false_or]

/-- Witness for claim C3: one relational create event on the orders table,
drained once and then drained again. -/
theorem accumulator_drain_exact_witness :
    sumCreates (getAndClear (runRecords
        [⟨tidOrders, OperationType.relational, OperationAction.create⟩])).1
        (makeKey tidOrders OperationType.relational)
      = countEvents [⟨tidOrders, OperationType.relational, OperationAction.create⟩]
          (makeKey tidOrders OperationType.relational) OperationAction.create ∧
    sumUpdates (getAndClear (runRecords
        [⟨tidOrders, OperationType.relational, OperationAction.create⟩])).1
        (makeKey tidOrders OperationType.relational)
      = countEvents [⟨tidOrders, OperationType.relational, OperationAction.create⟩]
          (makeKey tidOrders OperationType.relational) OperationAction.updateAct ∧
    sumDeletes (getAndClear (runRecords
        [⟨tidOrders, OperationType.relational, OperationAction.create⟩])).1
        (makeKey tidOrders OperationType.relational)
      = countEvents [⟨tidOrders, OperationType.relational, OperationAction.create⟩]
          (makeKey tidOrders OperationType.relational) OperationAction.deleteAct ∧
    ((∃ m ∈ (getAndClear (runRecords
        [⟨tidOrders, OperationType.relational, OperationAction.create⟩])).1,
        metricsKey m = makeKey tidOrders OperationType.relational) ↔
      ∃ e ∈ [(⟨tidOrders, OperationType.relational, OperationAction.create⟩ : RecordEvent)],
        makeKey e.tid e.op = makeKey tidOrders OperationType.relational) ∧
    (getAndClear (getAndClear (runRecords
        [⟨tidOrders, OperationType.relational, OperationAction.create⟩])).2).1 = [] :=
  accumulator_drain_exact
    [⟨tidOrders, OperationType.relational, OperationAction.create⟩]
    (makeKey tidOrders OperationType.relational) (by decide)

/-- Registering a worker adds its key and keeps every other key. -/
theorem mem_keys_setActive (a : ActiveQueries) (k : GoStr) (v : LiveQueryState)
    (j : GoStr) :
    j ∈ activeKeys (setActive a k v) ↔ j = k ∨ j ∈ activeKeys a := by
  unfold setActive
  by_cases h : a.any (fun p => decide (p.1 = k)) = true
  · rw [if_pos h]
    have hmem : k ∈ activeKeys a := by
      obtain ⟨p, hp, hpk⟩ := List.any_eq_true.mp h
      exact List.mem_map.mpr ⟨p, hp, by simpa using hpk⟩
    have hkeys : activeKeys (a.map (fun p => if p.1 = k then (k, v) else p))
        = activeKeys a := by
      unfold activeKeys
      rw [List.map_map]
      refine List.map_congr_left ?_
      intro p hp
      by_cases hpk : p.1 = k <;> simp [hpk]
    rw [hkeys]
    constructor
    · exact Or.inr
    · rintro (rfl | hj)
      · exact hmem
      · exact hj
  · rw [if_neg h]
    unfold activeKeys
    simp only [List.map_cons, List.mem_cons]

/-- The removal half of reconciliation keeps exactly the active keys that
are still desired. -/
theorem mem_keys_reconcileRemove (active : ActiveQueries)
    (desired : List TableIdentifier) (k : GoStr) :
    k ∈ activeKeys (reconcileRemove active desired) ↔
      k ∈ activeKeys active ∧ ∃ t ∈ desired, t.toGoString = k := by
  unfold reconcileRemove activeKeys
  constructor
  · intro hk
    obtain ⟨p, hp, hpk⟩ := List.mem_map.mp hk
    have hmf := List.mem_filter.mp hp
    obtain ⟨t, ht, htk⟩ := List.any_eq_true.mp hmf.2
    refine ⟨List.mem_map.mpr ⟨p, hmf.1, hpk⟩, ⟨t, ht, ?_⟩⟩
    rw [← hpk]
    simpa using htk
  · rintro ⟨hk, t, ht, htk⟩
    obtain ⟨p, hp, hpk⟩ := List.mem_map.mp hk
    refine List.mem_map.mpr ⟨p, List.mem_filter.mpr ⟨hp, ?_⟩, hpk⟩
    refine List.any_eq_true.mpr ⟨t, ht, ?_⟩
    simp [hpk, htk]

/-- The start half of reconciliation ends with an entry for every desired
key as soon as every started worker has registered. -/
theorem mem_keys_startFold (desired : List TableIdentifier) :
    ∀ (a : ActiveQueries) (k : GoStr),
      k ∈ activeKeys (desired.foldl
        (fun a t =>
          if a.any (fun p => decide (p.1 = t.toGoString)) then a
          else setActive a t.toGoString ⟨t⟩) a) ↔
        k ∈ activeKeys a ∨ ∃ t ∈ desired, t.toGoString = k := by
  induction desired with
  | nil =>
    intro a k
    simp only [List.foldl_nil]
    constructor
    · exact Or.inl
    · rintro (h | ⟨t, ht, _⟩)
      · exact h
      · exact absurd ht (List.not_mem_nil t)
  | cons t ts ih =>
    intro a k
    simp only [List.foldl_cons]
    rw [ih]
    have hstep : k ∈ activeKeys
        (if a.any (fun p => decide (p.1 = t.toGoString)) then a
         else setActive a t.toGoString ⟨t⟩) ↔
        (k ∈ activeKeys a ∨ t.toGoString = k) := by
      by_cases h : a.any (fun p => decide (p.1 = t.toGoString)) = true
      · rw [if_pos h]
        constructor
        · exact Or.inl
        · rintro (hk | rfl)
          · exact hk
          · obtain ⟨p, hp, hpk⟩ := List.any_eq_true.mp h
            exact List.mem_map.mpr ⟨p, hp, by simpa using hpk⟩
      · rw [if_neg h, mem_keys_setActive]
        constructor
        · rintro (rfl | hk)
          · exact Or.inr rfl
          · exact Or.inl hk
        · rintro (hk | rfl)
          · exact Or.inr hk
          · exact Or.inl rfl
    rw [hstep]
    constructor
    · rintro ((hk | hk) | ⟨t2, ht2, hk2⟩)
      · exact Or.inl hk
      · exact Or.inr ⟨t, List.mem_cons_self t ts, hk⟩
      · exact Or.inr ⟨t2, List.mem_cons_of_mem t ht2, hk2⟩
    · rintro (hk | ⟨t2, ht2, hk2⟩)
      · exact Or.inl (Or.inl hk)
      · rcases List.mem_cons.mp ht2 with rfl | ht3
        · exact Or.inl (Or.inr hk2)
        · exact Or.inr ⟨t2, ht3, hk2⟩

/-- Claim C2: after a reconciliation pass completes and every started
worker has registered, the key set of the active worker map equals the
desired key set exactly; active workers with undesired keys are dropped
by the removal half; every desired key without a worker is started by the
start half. -/
theorem reconcileQueries_key_sets (active : ActiveQueries)
    (desired : List TableIdentifier) :
    (∀ k, k ∈ activeKeys (reconcileConverged active desired) ↔
      ∃ t ∈ desired, t.toGoString = k) ∧
    (∀ k, k ∈ activeKeys active → (¬ ∃ t ∈ desired, t.toGoString = k) →
      ¬ k ∈ activeKeys (reconcileRemove active desired)) ∧
    (∀ t ∈ desired, ¬ t.toGoString ∈ activeKeys active →
      t.toGoString ∈ reconcileStarted active desired) := by
  refine ⟨?_, ?_, ?_⟩
  · intro k
    unfold reconcileConverged
    rw [mem_keys_startFold, mem_keys_reconcileRemove]
    constructor
    · rintro (⟨_, h⟩ | h)
      · exact h
      · exact h
    · intro h
      exact Or.inr h
  · intro k hk hnd hmem
    rw [mem_keys_reconcileRemove] at hmem
    exact hnd hmem.2
  · intro t ht hnin
    unfold reconcileStarted
    refine List.mem_filter.mpr ⟨List.mem_dedup.mpr (List.mem_map.mpr ⟨t, ht, rfl⟩), ?_⟩
    simpa using hnin

/-- Witness for claim C2: reconciling an active map holding only the users
worker against a desired set holding only the orders table. -/
theorem reconcileQueries_key_sets_witness :
    (tidOrders.toGoString ∈ activeKeys
        (reconcileConverged [(tidUsers.toGoString, ⟨tidUsers⟩)] [tidOrders]) ↔
      ∃ t ∈ [tidOrders], t.toGoString = tidOrders.toGoString) ∧
    ¬ tidUsers.toGoString ∈ activeKeys
        (reconcileRemove [(tidUsers.toGoString, ⟨tidUsers⟩)] [tidOrders]) ∧
    tidOrders.toGoString ∈ reconcileStarted
        [(tidUsers.toGoString, ⟨tidUsers⟩)] [tidOrders] :=
  ⟨(reconcileQueries_key_sets [(tidUsers.toGoString, ⟨tidUsers⟩)] [tidOrders]).1
      tidOrders.toGoString,
   (reconcileQueries_key_sets [(tidUsers.toGoString, ⟨tidUsers⟩)] [tidOrders]).2.1
      tidUsers.toGoString (by decide) (by decide),
   (reconcileQueries_key_sets [(tidUsers.toGoString, ⟨tidUsers⟩)] [tidOrders]).2.2
      tidOrders (by decide) (by decide)⟩

/-- Claim C1, evaluation at the failing input: with three reconnect
attempts allowed and three consecutive stream failures after successful
registration, the worker gives up but its key stays in the active map, so
a following reconciliation pass with the table still desired starts no
fresh worker and changes nothing. -/
theorem liveQuery_maxAttempts_staleEntry :
    tidOrders.toGoString ∈ activeKeys
      (manageLiveQueryLoop 3 tidOrders [.streamFail, .streamFail, .streamFail] 0 []) ∧
    reconcileStarted
      (manageLiveQueryLoop 3 tidOrders [.streamFail, .streamFail, .streamFail] 0 [])
      [tidOrders] = [] ∧
    activeKeys (reconcileConverged
        (manageLiveQueryLoop 3 tidOrders [.streamFail, .streamFail, .streamFail] 0 [])
        [tidOrders])
      = activeKeys
        (manageLiveQueryLoop 3 tidOrders [.streamFail, .streamFail, .streamFail] 0 []) := by
  decide

/-- Session creation never reports the scope-mismatch contract error. -/
theorem createConnection_no_mismatch (att : ConnAttempt) (ns db : GoStr) (fid : Nat) :
    ¬ createConnection att ns db fid = .error .mismatch := by
  unfold createConnection
  split_ifs <;> simp

/-- The keyed path of the multi-session pool never reports the
scope-mismatch contract error. -/
theorem multiGetOrCreate_no_mismatch (mst : MultiManagerState) (key ns db : GoStr)
    (att : ConnAttempt) (fid : Nat) :
    ¬ (multiGetOrCreate mst key ns db att fid).1 = .error .mismatch := by
  unfold multiGetOrCreate
  cases hl : lookupConn mst key with
  | some c => simp
  | none =>
    cases hcr : createConnection att ns db fid with
    | error e =>
      have he : ¬ e = .mismatch := fun h =>
        createConnection_no_mismatch att ns db fid (h ▸ hcr)
      simp [he]
    | ok c => simp

/-- Claim C7: when session creation fails at any step (connect, sign-in,
authenticate, or the initial scope switch), both pool variants return the
error and leave their state unchanged, so the next Get for the same scope
retries creation from scratch. -/
theorem sessionPool_failed_creation_not_cached
    (st : SingleManagerState) (ns db : GoStr) (att : ConnAttempt) (u : Bool)
    (fid : Nat) (e : GetError)
    (hscope : (ns = []) ↔ (db = []))
    (hconn : st.conn = none)
    (hfail : createConnection att ns db fid = .error e) :
    singleGet st ns db att u fid = (.error e, st) ∧
    ∀ (mst : MultiManagerState) (key : GoStr), lookupConn mst key = none →
      multiGetOrCreate mst key ns db att fid = (.error e, mst) := by
  have hmix : (decide (ns = []) != decide (db = [])) = false := by
    by_cases h1 : ns = []
    · simp [h1, hscope.mp h1]
    · have h2 : ¬ db = [] := fun hdb => h1 (hscope.mpr hdb)
      simp [h1, h2]
  constructor
  · unfold singleGet
    rw [hmix]
    simp only [Bool.false_eq_true, if_false, hconn, hfail]
  · intro mst key hkey
    unfold multiGetOrCreate
    rw [hkey, hfail]

/-- Witness for claim C7: a failing connect attempt against both fresh
pools. -/
theorem sessionPool_failed_creation_witness :
    singleGet newSingleManager (gs "ns1") (gs "db1") ⟨false, true, true, true⟩ true 0
      = (.error .connectFailed, newSingleManager) ∧
    multiGetOrCreate [] (gs "ns1:db1") (gs "ns1") (gs "db1")
      ⟨false, true, true, true⟩ 0 = (.error .connectFailed, []) := by
  have h := sessionPool_failed_creation_not_cached newSingleManager (gs "ns1") (gs "db1")
    ⟨false, true, true, true⟩ true 0 .connectFailed (by decide) rfl rfl
  exact ⟨h.1, h.2 [] (gs "ns1:db1") rfl⟩

/-- Claim C8: for both pool variants, a Get whose namespace and database
arguments do not share emptiness returns the contract-violation error and
leaves the pool untouched; otherwise the contract check passes and the
mismatch error is never produced. -/
theorem sessionPool_scope_validation (st : SingleManagerState)
    (mst : MultiManagerState) (ns db : GoStr) (att : ConnAttempt) (u : Bool)
    (fid : Nat) :
    (¬ ((ns = []) ↔ (db = [])) →
      singleGet st ns db att u fid = (.error .mismatch, st) ∧
      multiGet mst ns db att fid = (.error .mismatch, mst)) ∧
    (((ns = []) ↔ (db = [])) →
      ¬ (singleGet st ns db att u fid).1 = .error .mismatch ∧
      ¬ (multiGet mst ns db att fid).1 = .error .mismatch) := by
  constructor
  · intro hbad
    have h1 : ¬ ((ns = []) ∧ (db = [])) ∨ ¬ (¬ ns = [] ∧ ¬ db = []) := by tauto
    have hone : (ns = [] ∧ ¬ db = []) ∨ (¬ ns = [] ∧ db = []) := by tauto
    constructor
    · unfold singleGet
      rcases hone with ⟨ha, hb⟩ | ⟨ha, hb⟩ <;> simp [ha, hb]
    · unfold multiGet
      rcases hone with ⟨ha, hb⟩ | ⟨ha, hb⟩ <;> simp [ha, hb]
  · intro hscope
    have hmix : (decide (ns = []) != decide (db = [])) = false := by
      by_cases h1 : ns = []
      · simp [h1, hscope.mp h1]
      · have h2 : ¬ db = [] := fun hdb => h1 (hscope.mpr hdb)
        simp [h1, h2]
    constructor
    · unfold singleGet
      rw [hmix]
      simp only [Bool.false_eq_true, if_false]
      cases hc : st.conn with
      | none =>
        cases hcr : createConnection att ns db fid with
        | error e =>
          have he : ¬ e = .mismatch := fun h =>
            createConnection_no_mismatch att ns db fid (h ▸ hcr)
          simp [he]
        | ok c => split_ifs <;> simp
      | some c => split_ifs <;> simp
    · unfold multiGet
      have hcond : ((decide (ns = []) && decide (¬ db = []))
          || (decide (¬ ns = []) && decide (db = []))) = false := by
        by_cases h1 : ns = []
        · simp [h1, hscope.mp h1]
        · have h2 : ¬ db = [] := fun hdb => h1 (hscope.mpr hdb)
          simp [h1, h2]
      rw [hcond]
      simp only [Bool.false_eq_true, if_false]
      split_ifs <;> exact multiGetOrCreate_no_mismatch _ _ _ _ _ _

/-- Witness for claim C8: one mismatched and one agreeing scope request
against both fresh pools. -/
theorem sessionPool_scope_validation_witness :
    (singleGet newSingleManager [] (gs "db1") ⟨true, true, true, true⟩ true 0
        = (.error .mismatch, newSingleManager) ∧
      multiGet [] [] (gs "db1") ⟨true, true, true, true⟩ 0 = (.error .mismatch, [])) ∧
    (¬ (singleGet newSingleManager [] [] ⟨true, true, true, true⟩ true 0).1
        = .error .mismatch ∧
      ¬ (multiGet [] [] [] ⟨true, true, true, true⟩ 0).1 = .error .mismatch) :=
  ⟨(sessionPool_scope_validation newSingleManager [] [] (gs "db1")
      ⟨true, true, true, true⟩ true 0).1 (by decide),
   (sessionPool_scope_validation newSingleManager [] [] []
      ⟨true, true, true, true⟩ true 0).2 (by decide)⟩

/-- The removal half of the stats reconciliation keeps exactly the still
desired entries and issues exactly the removal operations of the dropped
entries, in map order. -/
theorem statsRemoveFold_spec (desired : List TableIdentifier)
    (active : ActiveStatsTables) :
    ∀ acc : ActiveStatsTables × List DBOp,
      active.foldl
        (fun (acc : ActiveStatsTables × List DBOp) p =>
          if desired.any (fun t => decide (t.toGoString = p.1)) then
            (acc.1 ++ [p], acc.2)
          else (acc.1, acc.2 ++ removeStatsTableOps p.2)) acc
      = (acc.1 ++ active.filter
            (fun p => desired.any (fun t => decide (t.toGoString = p.1))),
         acc.2 ++ (active.filter
            (fun p => !(desired.any (fun t => decide (t.toGoString = p.1))))).flatMap
            (fun p => removeStatsTableOps p.2)) := by
  induction active with
  | nil => intro acc; simp
  | cons p rest ih =>
    intro acc
    simp only [List.foldl_cons, List.filter_cons]
    by_cases h : desired.any (fun t => decide (t.toGoString = p.1)) = true
    · rw [ih]
      simp [h, List.append_assoc]
    · rw [Bool.not_eq_true] at h
      rw [ih]
      simp [h, List.append_assoc]

/-- Every operation issued by side-table creation is a creation, not a
removal. -/
theorem createStatsTableOps_no_removal (pre : GoStr) (t : TableIdentifier) :
    ∀ op ∈ createStatsTableOps pre t, op.isRemoval = false := by
  intro op hop
  simp only [createStatsTableOps, List.mem_cons, List.not_mem_nil, or_false] at hop
  rcases hop with rfl | rfl | rfl | rfl <;> rfl

/-- The creation half of the stats reconciliation only appends creation
operations. -/
theorem statsAddFold_no_removal (pre : GoStr) (desired : List TableIdentifier) :
    ∀ acc : ActiveStatsTables × List DBOp,
      (∀ op ∈ acc.2, op.isRemoval = false) →
      ∀ op ∈ (desired.foldl
        (fun (acc : ActiveStatsTables × List DBOp) t =>
          if acc.1.any (fun p => decide (p.1 = t.toGoString)) then acc
          else
            (acc.1 ++ [(t.toGoString, ⟨t, getStatsTableName pre t.table⟩)],
             acc.2 ++ createStatsTableOps pre t)) acc).2,
        op.isRemoval = false := by
  induction desired with
  | nil =>
    intro acc h
    simp only [List.foldl_nil]
    exact h
  | cons t ts ih =>
    intro acc h
    simp only [List.foldl_cons]
    by_cases hc : acc.1.any (fun p => decide (p.1 = t.toGoString)) = true
    · rw [if_pos hc]
      exact ih acc h
    · rw [if_neg hc]
      refine ih _ ?_
      intro op hop
      rcases List.mem_append.mp hop with h1 | h2
      · exact h op h1
      · exact createStatsTableOps_no_removal pre t op h2

/-- The creation half of the stats reconciliation never drops an entry. -/
theorem statsAddFold_keeps (pre : GoStr) (desired : List TableIdentifier) :
    ∀ (acc : ActiveStatsTables × List DBOp) (k : GoStr),
      k ∈ statsKeys acc.1 →
      k ∈ statsKeys (desired.foldl
        (fun (acc : ActiveStatsTables × List DBOp) t =>
          if acc.1.any (fun p => decide (p.1 = t.toGoString)) then acc
          else
            (acc.1 ++ [(t.toGoString, ⟨t, getStatsTableName pre t.table⟩)],
             acc.2 ++ createStatsTableOps pre t)) acc).1 := by
  induction desired with
  | nil =>
    intro acc k h
    simp only [List.foldl_nil]
    exact h
  | cons t ts ih =>
    intro acc k h
    simp only [List.foldl_cons]
    by_cases hc : acc.1.any (fun p => decide (p.1 = t.toGoString)) = true
    · rw [if_pos hc]
      exact ih acc k h
    · rw [if_neg hc]
      refine ih _ k ?_
      unfold statsKeys at h ⊢
      rw [List.map_append, List.mem_append]
      exact Or.inl h

/-- Every key the creation half adds comes from the desired set. -/
theorem statsAddFold_keys_from (pre : GoStr) (desired : List TableIdentifier) :
    ∀ (acc : ActiveStatsTables × List DBOp) (k : GoStr),
      k ∈ statsKeys (desired.foldl
        (fun (acc : ActiveStatsTables × List DBOp) t =>
          if acc.1.any (fun p => decide (p.1 = t.toGoString)) then acc
          else
            (acc.1 ++ [(t.toGoString, ⟨t, getStatsTableName pre t.table⟩)],
             acc.2 ++ createStatsTableOps pre t)) acc).1 →
      k ∈ statsKeys acc.1 ∨ ∃ t ∈ desired, t.toGoString = k := by
  induction desired with
  | nil =>
    intro acc k h
    simp only [List.foldl_nil] at h
    exact Or.inl h
  | cons t ts ih =>
    intro acc k h
    simp only [List.foldl_cons] at h
    by_cases hc : acc.1.any (fun p => decide (p.1 = t.toGoString)) = true
    · rw [if_pos hc] at h
      rcases ih acc k h with h1 | ⟨t2, ht2, hk2⟩
      · exact Or.inl h1
      · exact Or.inr ⟨t2, List.mem_cons_of_mem t ht2, hk2⟩
    · rw [if_neg hc] at h
      rcases ih _ k h with h1 | ⟨t2, ht2, hk2⟩
      · unfold statsKeys at h1
        rw [List.map_append, List.mem_append] at h1
        rcases h1 with h1a | h1b
        · exact Or.inl h1a
        · rw [List.map_cons, List.map_nil] at h1b
          rcases List.mem_cons.mp h1b with h1c | h1d
          · exact Or.inr ⟨t, List.mem_cons_self t ts, h1c.symm⟩
          · exact absurd h1d (List.not_mem_nil k)
      · exact Or.inr ⟨t2, List.mem_cons_of_mem t ht2, hk2⟩

/-- The creation half only appends to the operation trace. -/
theorem statsAddFold_ops_extend (pre : GoStr) (desired : List TableIdentifier) :
    ∀ acc : ActiveStatsTables × List DBOp,
      ∃ suf, (desired.foldl
        (fun (acc : ActiveStatsTables × List DBOp) t =>
          if acc.1.any (fun p => decide (p.1 = t.toGoString)) then acc
          else
            (acc.1 ++ [(t.toGoString, ⟨t, getStatsTableName pre t.table⟩)],
             acc.2 ++ createStatsTableOps pre t)) acc).2 = acc.2 ++ suf := by
  induction desired with
  | nil =>
    intro acc
    refine ⟨[], ?_⟩
    rw [List.foldl_nil, List.append_nil]
  | cons t ts ih =>
    intro acc
    simp only [List.foldl_cons]
    by_cases hc : acc.1.any (fun p => decide (p.1 = t.toGoString)) = true
    · rw [if_pos hc]
      exact ih acc
    · rw [if_neg hc]
      obtain ⟨suf, hsuf⟩ := ih (acc.1 ++ [(t.toGoString, ⟨t, getStatsTableName pre t.table⟩)],
        acc.2 ++ createStatsTableOps pre t)
      exact ⟨createStatsTableOps pre t ++ suf, by rw [hsuf, List.append_assoc]⟩

/-- An element's image is an infix of the flat map over its list. -/
theorem isInfix_flatMap (p : GoStr × StatsTableState) (l : List (GoStr × StatsTableState))
    (hp : p ∈ l) :
    List.IsInfix (removeStatsTableOps p.2)
      (l.flatMap (fun q => removeStatsTableOps q.2)) := by
  induction l with
  | nil => exact absurd hp (List.not_mem_nil p)
  | cons q qs ih =>
    rcases List.mem_cons.mp hp with rfl | hp2
    · exact ⟨[], qs.flatMap (fun q => removeStatsTableOps q.2), by simp⟩
    · obtain ⟨s, t, hst⟩ := ih hp2
      refine ⟨removeStatsTableOps q.2 ++ s, t, ?_⟩
      rw [List.flatMap_cons, ← hst]
      simp [List.append_assoc]

/-- Claim C9: with orphan removal disabled the stats reconciliation never
issues a trigger removal or record deletion and never drops a provisioned
entry; with orphan removal enabled, every provisioned entry no longer
desired leaves the manager state and its three trigger removals followed
by its record deletion appear in the issued operation trace. -/
theorem statsTable_orphan_removal (pre : GoStr) (active : ActiveStatsTables)
    (desired : List TableIdentifier) :
    (∀ op ∈ (reconcileStatsTables false pre active desired).2, op.isRemoval = false) ∧
    (∀ k ∈ statsKeys active,
      k ∈ statsKeys (reconcileStatsTables false pre active desired).1) ∧
    (∀ p ∈ active, (¬ ∃ t ∈ desired, t.toGoString = p.1) →
      ¬ p.1 ∈ statsKeys (reconcileStatsTables true pre active desired).1 ∧
      List.IsInfix (removeStatsTableOps p.2)
        (reconcileStatsTables true pre active desired).2) := by
  have hfalse : reconcileStatsTables false pre active desired
      = desired.foldl
          (fun (acc : ActiveStatsTables × List DBOp) t =>
            if acc.1.any (fun p => decide (p.1 = t.toGoString)) then acc
            else
              (acc.1 ++ [(t.toGoString, ⟨t, getStatsTableName pre t.table⟩)],
               acc.2 ++ createStatsTableOps pre t))
          (active, []) := rfl
  have htrue : reconcileStatsTables true pre active desired
      = desired.foldl
          (fun (acc : ActiveStatsTables × List DBOp) t =>
            if acc.1.any (fun p => decide (p.1 = t.toGoString)) then acc
            else
              (acc.1 ++ [(t.toGoString, ⟨t, getStatsTableName pre t.table⟩)],
               acc.2 ++ createStatsTableOps pre t))
          (active.filter (fun p => desired.any (fun t => decide (t.toGoString = p.1))),
           (active.filter
              (fun p => !(desired.any (fun t => decide (t.toGoString = p.1))))).flatMap
             (fun p => removeStatsTableOps p.2)) := by
    show desired.foldl _
        (active.foldl
          (fun (acc : ActiveStatsTables × List DBOp) p =>
            if desired.any (fun t => decide (t.toGoString = p.1)) then
              (acc.1 ++ [p], acc.2)
            else (acc.1, acc.2 ++ removeStatsTableOps p.2)) ([], [])) = _
    rw [statsRemoveFold_spec desired active ([], [])]
    simp only [List.nil_append]
  refine ⟨?_, ?_, ?_⟩
  · rw [hfalse]
    refine statsAddFold_no_removal pre desired (active, []) ?_
    intro op hop
    exact absurd hop (List.not_mem_nil op)
  · intro k hk
    rw [hfalse]
    exact statsAddFold_keeps pre desired (active, []) k hk
  · intro p hp hnd
    have hpAny : desired.any (fun t => decide (t.toGoString = p.1)) = false := by
      rw [← Bool.not_eq_true]
      intro h
      obtain ⟨t, ht, htk⟩ := List.any_eq_true.mp h
      exact hnd ⟨t, ht, by simpa using htk⟩
    constructor
    · rw [htrue]
      intro hmem
      rcases statsAddFold_keys_from pre desired _ p.1 hmem with h1 | h2
      · obtain ⟨q, hq, hqk⟩ := List.mem_map.mp h1
        have hqf := List.mem_filter.mp hq
        obtain ⟨t, ht, htk⟩ := List.any_eq_true.mp hqf.2
        refine hnd ⟨t, ht, ?_⟩
        have : t.toGoString = q.1 := by simpa using htk
        rw [this, hqk]
      · exact hnd h2
    · rw [htrue]
      have hdrop : p ∈ active.filter
          (fun p => !(desired.any (fun t => decide (t.toGoString = p.1)))) :=
        List.mem_filter.mpr ⟨hp, by simp [hpAny]⟩
      have hinf := isInfix_flatMap p _ hdrop
      obtain ⟨suf, hsuf⟩ := statsAddFold_ops_extend pre desired
        (active.filter (fun p => desired.any (fun t => decide (t.toGoString = p.1))),
         (active.filter
            (fun p => !(desired.any (fun t => decide (t.toGoString = p.1))))).flatMap
           (fun p => removeStatsTableOps p.2))
      rw [hsuf]
      obtain ⟨s, t, hst⟩ := hinf
      refine ⟨s, t ++ suf, ?_⟩
      rw [← List.append_assoc, hst]

/-- Witness for claim C9: the provisioned users side table against a
desired set holding only the orders table. -/
theorem statsTable_orphan_removal_witness :
    (∀ op ∈ (reconcileStatsTables false (gs "stats_") [usersStatsEntry] [tidOrders]).2,
      op.isRemoval = false) ∧
    ¬ usersStatsEntry.1 ∈ statsKeys
        (reconcileStatsTables true (gs "stats_") [usersStatsEntry] [tidOrders]).1 ∧
    List.IsInfix (removeStatsTableOps usersStatsEntry.2)
      (reconcileStatsTables true (gs "stats_") [usersStatsEntry] [tidOrders]).2 := by
  have h := statsTable_orphan_removal (gs "stats_") [usersStatsEntry] [tidOrders]
  have h3 := h.2.2 usersStatsEntry (List.mem_cons_self usersStatsEntry [])
    (by decide)
  exact ⟨h.1, h3.1, h3.2⟩

/-- Boolean characterization of shouldMonitor: not excluded, and either no
includes are configured or some include matches. -/
theorem shouldMonitor_eq (inc exc : List GoStr) (tid : TableIdentifier) :
    shouldMonitor (newTableFilter inc exc) tid
      = (!(exc.any (fun p => matchesPattern tid.toGoString p))
        && (inc.isEmpty || inc.any (fun p => matchesPattern tid.toGoString p))) := by
  unfold shouldMonitor newTableFilter
  cases inc with
  | nil =>
    cases exc with
    | nil => rfl
    | cons e es =>
      simp only [List.length_nil, List.length_cons]
      cases h : (e :: es).any (fun p => matchesPattern tid.toGoString p) <;> simp [h]
  | cons i is =>
    simp only [List.length_cons]
    cases h : exc.any (fun p => matchesPattern tid.toGoString p) <;> simp [h]

/-- Claim C5: excludes are evaluated first and take precedence; with no
includes configured a table is monitored exactly when no exclude matches;
with includes configured a table is monitored exactly when no exclude
matches and some include matches; and on the example scenario the filter
with exclude pattern ns1:db1:users keeps only the orders table. -/
theorem tableFilter_policy (inc exc : List GoStr) (tid : TableIdentifier) :
    ((∃ p ∈ exc, matchesPattern tid.toGoString p = true) →
      shouldMonitor (newTableFilter inc exc) tid = false) ∧
    (inc = [] →
      (shouldMonitor (newTableFilter inc exc) tid = true ↔
        ∀ p ∈ exc, matchesPattern tid.toGoString p = false)) ∧
    (¬ inc = [] →
      (shouldMonitor (newTableFilter inc exc) tid = true ↔
        ((∀ p ∈ exc, matchesPattern tid.toGoString p = false) ∧
          ∃ p ∈ inc, matchesPattern tid.toGoString p = true))) ∧
    filterTables (newTableFilter [] [gs "ns1:db1:users"]) [ordersInfo, usersInfo]
      = [tidOrders] := by
  refine ⟨?_, ?_, ?_, by decide⟩
  · intro hex
    rw [shouldMonitor_eq]
    have hany : exc.any (fun p => matchesPattern tid.toGoString p) = true := by
      obtain ⟨p, hp, hmp⟩ := hex
      exact List.any_eq_true.mpr ⟨p, hp, hmp⟩
    simp [hany]
  · intro hinc
    subst hinc
    rw [shouldMonitor_eq]
    cases hany : exc.any (fun p => matchesPattern tid.toGoString p) with
    | false =>
      simp only [hany, Bool.not_false, List.isEmpty_nil, Bool.true_or, Bool.and_true]
      constructor
      · intro _ p hp
        have hnp := List.any_eq_false.mp hany p hp
        rwa [Bool.not_eq_true] at hnp
      · intro _
        trivial
    | true =>
      simp only [hany, Bool.not_true, Bool.false_and]
      constructor
      · intro h
        exact absurd h (by simp)
      · intro hall
        obtain ⟨p, hp, hmp⟩ := List.any_eq_true.mp hany
        rw [hall p hp] at hmp
        exact absurd hmp (by simp)
  · intro hinc
    rw [shouldMonitor_eq]
    have hne : inc.isEmpty = false := by
      cases inc with
      | nil => exact absurd rfl hinc
      | cons i is => rfl
    rw [hne, Bool.false_or]
    constructor
    · intro h
      have hexcf : exc.any (fun p => matchesPattern tid.toGoString p) = false := by
        cases hany : exc.any (fun p => matchesPattern tid.toGoString p) with
        | false => rfl
        | true => rw [hany] at h; exact absurd h (by simp)
      rw [hexcf] at h
      simp only [Bool.not_false, Bool.true_and] at h
      refine ⟨?_, ?_⟩
      · intro p hp
        have hnp := List.any_eq_false.mp hexcf p hp
        rwa [Bool.not_eq_true] at hnp
      · obtain ⟨p, hp, hmp⟩ := List.any_eq_true.mp h
        exact ⟨p, hp, hmp⟩
    · rintro ⟨hall, p, hp, hmp⟩
      have hexcf : exc.any (fun p => matchesPattern tid.toGoString p) = false := by
        refine List.any_eq_false.mpr ?_
        intro q hq
        rw [Bool.not_eq_true]
        exact hall q hq
      rw [hexcf]
      simp only [Bool.not_false, Bool.true_and]
      exact List.any_eq_true.mpr ⟨p, hp, hmp⟩

/-- Witness for claim C5: the users table is excluded, the orders table is
monitored under the exclude-only filter, and an include-configured filter
monitors the orders table through its matching include pattern. -/
theorem tableFilter_policy_witness :
    shouldMonitor (newTableFilter [] [gs "ns1:db1:users"]) tidUsers = false ∧
    (shouldMonitor (newTableFilter [] [gs "ns1:db1:users"]) tidOrders = true ↔
      ∀ p ∈ [gs "ns1:db1:users"], matchesPattern tidOrders.toGoString p = false) ∧
    (shouldMonitor (newTableFilter [gs "ns1:*"] []) tidOrders = true ↔
      ((∀ p ∈ ([] : List GoStr), matchesPattern tidOrders.toGoString p = false) ∧
        ∃ p ∈ [gs "ns1:*"], matchesPattern tidOrders.toGoString p = true)) :=
  ⟨(tableFilter_policy [] [gs "ns1:db1:users"] tidUsers).1
      ⟨gs "ns1:db1:users", List.mem_cons_self _ _, by decide⟩,
   (tableFilter_policy [] [gs "ns1:db1:users"] tidOrders).2.1 rfl,
   (tableFilter_policy [gs "ns1:*"] [] tidOrders).2.2.1 (by decide)⟩

/-- Claim C6, counterexample: the copy returned by get shares its
TableInfo pointers with the cache, so a caller writing through a pointer
taken from the returned slice changes what a later get observes. -/
theorem cacheGet_pointee_mutation_counterexample :
    (let m : CacheMem := ⟨[[0]], [ordersInfo]⟩
     let c : CacheState := ⟨0⟩
     let g := cacheGet m c
     let addr := (sliceContents g.2 g.1).getD 0 0
     ¬ observeCache (writeInfo g.2 addr usersInfo) c = observeCache m c) := by
  decide

/-- Claim C6 as amended: get returns a fresh backing array holding a copy
of the cached pointer slice, so overwriting elements of the returned
slice never changes the cached slice contents nor what a later get
observes; only writes through the shared pointed-to TableInfo values are
visible. -/
theorem cacheGet_slice_copy_frame (m : CacheMem) (c : CacheState)
    (h : c.tablesRef < m.slices.length) (i addr : Nat) :
    ¬ (cacheGet m c).1 = c.tablesRef ∧
    sliceContents (writeSliceElem (cacheGet m c).2 (cacheGet m c).1 i addr)
        c.tablesRef
      = sliceContents m c.tablesRef ∧
    observeCache (writeSliceElem (cacheGet m c).2 (cacheGet m c).1 i addr) c
      = observeCache m c := by
  have h1 : (cacheGet m c).1 = m.slices.length := rfl
  have hne : ¬ (cacheGet m c).1 = c.tablesRef := by
    rw [h1]
    omega
  have h2 : sliceContents (writeSliceElem (cacheGet m c).2 (cacheGet m c).1 i addr)
      c.tablesRef = sliceContents m c.tablesRef := by
    unfold writeSliceElem cacheGet sliceContents
    simp only []
    rw [List.getD_eq_getElem?_getD, List.getD_eq_getElem?_getD]
    rw [List.getElem?_set_ne (by simp; omega)]
    rw [List.getElem?_append_left h]
  refine ⟨hne, h2, ?_⟩
  unfold observeCache
  rw [h2]
  rfl

/-- Witness for claim C6 at a one-table cache. -/
theorem cacheGet_slice_copy_frame_witness :
    ¬ (cacheGet ⟨[[0]], [ordersInfo]⟩ ⟨0⟩).1 = (CacheState.mk 0).tablesRef ∧
    sliceContents (writeSliceElem (cacheGet ⟨[[0]], [ordersInfo]⟩ ⟨0⟩).2
        (cacheGet ⟨[[0]], [ordersInfo]⟩ ⟨0⟩).1 0 5) (CacheState.mk 0).tablesRef
      = sliceContents ⟨[[0]], [ordersInfo]⟩ (CacheState.mk 0).tablesRef ∧
    observeCache (writeSliceElem (cacheGet ⟨[[0]], [ordersInfo]⟩ ⟨0⟩).2
        (cacheGet ⟨[[0]], [ordersInfo]⟩ ⟨0⟩).1 0 5) ⟨0⟩
      = observeCache ⟨[[0]], [ordersInfo]⟩ ⟨0⟩ :=
  cacheGet_slice_copy_frame ⟨[[0]], [ordersInfo]⟩ ⟨0⟩ (by decide) 0 5
